import Mathlib

/-!
Verification of the LightController schedule resolver (src/LightController.ino).

The embedding models the core of `UpdateLights` / `GetSeconds`:

* a schedule row is the 5-tuple `{HourStart, MinuteStart, HourEnd, MinuteEnd, Intensity}`
  (`lightMatrix` rows in the source);
* `GetSeconds` is the source conversion from hours/minutes/seconds to seconds
  since midnight;
* `scanRows` is the inner per-channel loop of `UpdateLights` (source lines
  147-167): it scans rows in order, breaking either inside a period
  (`pEnd >= seconds`) or inside a transition gap (`pNextStart > seconds`),
  where the gap intensity is computed by `gapValue`;
* `UpdateLights` maps that scan over all channels, keeping the previous
  `lightValue` entry when the scan falls through without a break.

Modelling conventions: C `int`/`long` values are modelled as unbounded `Int`
(all quantities involved are at most 86400 in magnitude, so no overflow
occurs on the 32-bit targets the sketch is compiled for); the C expression
`(int)((seconds - pEnd) * ((float)intensityDiff / tDur))` is modelled as the
exact real quotient truncated toward zero, which is `Int.tdiv` of the product,
exactly the truncation-toward-zero policy the specification describes.
A scan that would read `lightMatrix[channel][period+1]` past the last row
(out of bounds in C) is modelled by the scan returning `none`; `scanOOB`
detects exactly that situation.
-/

/-- One row of a channel's schedule, as in the source:
`{HourStart, MinuteStart, HourEnd, MinuteEnd, Intensity}`. -/
structure Row where
  startH : Int
  startM : Int
  endH : Int
  endM : Int
  intensity : Int
deriving DecidableEq, Repr

/-- `GetSeconds` from the source (line 171): convert HH:mm:ss to seconds
since midnight. -/
def GetSeconds (hours minutes seconds : Int) : Int :=
  hours * 60 * 60 + minutes * 60 + seconds

/-- Start time of a row in seconds, as the scan computes it
(`GetSeconds(lightMatrix[channel][period][START_H], ..[START_M], 0)`). -/
def rowStart (r : Row) : Int :=
  GetSeconds r.startH r.startM 0

/-- End time of a row in seconds, as the scan computes it
(`GetSeconds(lightMatrix[channel][period][END_H], ..[END_M], 0)`). -/
def rowEnd (r : Row) : Int :=
  GetSeconds r.endH r.endM 0

/-! ### An exact, executable model of the IEEE binary32 arithmetic the
sketch performs.  Arduino `float` is single precision on both AVR and ARM
targets, with round to nearest, ties to even.  All quantities the sketch
feeds to the float unit are integers of magnitude well below 2^24, so the
int-to-float conversions are modelled too (they are exact in that range),
and a float value is represented exactly as a dyadic pair
(mantissa, scale) of value mantissa / 2 ^ scale. -/

/-- Fuel-indexed floor of the base-2 logarithm: for `1 ≤ n < 2 ^ fuel`,
`log2Nat fuel n` is the greatest `L` with `2 ^ L ≤ n`.  Structural
recursion, so concrete instances reduce in the kernel. -/
def log2Nat : Nat → Nat → Nat
  | 0, _ => 0
  | fuel + 1, n => if 2 ≤ n then log2Nat fuel (n / 2) + 1 else 0

/-- Decide `2 ^ e ≤ num / den` by cross multiplication. -/
def pow2Le (e : Int) (num den : Nat) : Bool :=
  if 0 ≤ e then decide (den * 2 ^ e.toNat ≤ num) else decide (den ≤ num * 2 ^ (-e).toNat)

/-- Floor of the base-2 logarithm of the positive ratio num/den (faithful
for num, den < 2^128): the bit-length difference, corrected by one
cross-multiplied comparison. -/
def ratLog2 (num den : Nat) : Int :=
  let e0 : Int := (log2Nat 128 num : Int) - (log2Nat 128 den : Int)
  if pow2Le e0 num den then e0 else e0 - 1

/-- Multiply the ratio num/den by 2 ^ k, keeping numerator and denominator
natural. -/
def shiftFrac (num den : Nat) (k : Int) : Nat × Nat :=
  if 0 ≤ k then (num * 2 ^ k.toNat, den) else (num, den * 2 ^ (-k).toNat)

/-- Round the nonnegative ratio num/den to the nearest integer, ties to
even (the IEEE default rounding). -/
def rne (num den : Nat) : Nat :=
  let q := num / den
  let r := num % den
  if 2 * r < den then q
  else if den < 2 * r then q + 1
  else if q % 2 = 0 then q else q + 1

/-- Round the nonnegative rational num/den to IEEE binary32 precision
(24 significant bits, round to nearest, ties to even), as a dyadic
mantissa-scale pair of value mantissa / 2 ^ scale.  Faithful for
1 ≤ num, den < 2^128 (far beyond anything the sketch computes; the
sketch's values cause neither overflow nor subnormals); num = 0 maps
to value 0. -/
def fl32Round (num den : Nat) : Nat × Int :=
  let k : Int := 23 - ratLog2 num den
  let p := shiftFrac num den k
  (rne p.1 p.2, k)

/-- Binary32 division of two nonnegative dyadic values: the exact quotient,
rounded. -/
def div32 (a b : Nat × Int) : Nat × Int :=
  let p := shiftFrac a.1 b.1 (b.2 - a.2)
  fl32Round p.1 p.2

/-- Binary32 multiplication of two nonnegative dyadic values: the exact
product, rounded. -/
def mul32 (a b : Nat × Int) : Nat × Int :=
  let p := shiftFrac (a.1 * b.1) 1 (0 - (a.2 + b.2))
  fl32Round p.1 p.2

/-- The C cast `(int)` of a nonnegative dyadic value: truncation toward
zero, which on nonnegative values is the floor. -/
def trunc32 (p : Nat × Int) : Int :=
  if 0 ≤ p.2 then ((p.1 / 2 ^ p.2.toNat : Nat) : Int) else ((p.1 * 2 ^ (-p.2).toNat : Nat) : Int)

/-- The C expression `(int)(E * ((float)D / T))` under IEEE binary32
arithmetic: both division operands are converted to float (exact below
2^24), divided with one rounding, the long `E` is converted and multiplied
with one rounding, and the cast truncates toward zero.  Computed on
magnitudes with the product's sign reinstated at the end (binary32
rounding and the truncating cast are both symmetric under negation).
`T = 0` cannot arise in the scan and is mapped to 0. -/
def floatMulDiv (E D T : Int) : Int :=
  let mag := trunc32 (mul32 (fl32Round E.natAbs 1) (div32 (fl32Round D.natAbs 1) (fl32Round T.natAbs 1)))
  if (decide (E < 0)).xor ((decide (D < 0)).xor (decide (T < 0))) then 0 - mag else mag

/-- The rational 2 ^ e for an integer exponent. -/
def pow2 (e : Int) : Rat := (2 : Rat) ^ e

/-- Value of a dyadic mantissa-scale pair. -/
def dval (p : Nat × Int) : Rat := (p.1 : Rat) / pow2 p.2

theorem log2Nat_spec : ∀ (fuel n : Nat), 1 ≤ n → n < 2 ^ fuel →
    2 ^ log2Nat fuel n ≤ n ∧ n < 2 ^ (log2Nat fuel n + 1)
  | 0, n, h1, h2 => by norm_num at h2; omega
  | fuel + 1, n, h1, h2 => by
    rw [log2Nat]
    by_cases h : 2 ≤ n
    · rw [if_pos h]
      have hd1 : 1 ≤ n / 2 := by omega
      have hd2 : n / 2 < 2 ^ fuel := by
        rw [Nat.pow_succ] at h2
        omega
      obtain ⟨i1, i2⟩ := log2Nat_spec fuel (n / 2) hd1 hd2
      rw [Nat.pow_succ] at i2
      rw [Nat.pow_succ, Nat.pow_succ]
      omega
    · rw [if_neg h]
      norm_num
      omega

theorem pow2_pos (e : Int) : 0 < pow2 e := zpow_pos (by norm_num) e

theorem pow2_add (a b : Int) : pow2 (a + b) = pow2 a * pow2 b :=
  zpow_add₀ (by norm_num) a b

theorem pow2_natCast (c : Nat) : pow2 (c : Int) = ((2 ^ c : Nat) : Rat) := by
  rw [pow2, zpow_natCast]
  push_cast
  ring

theorem pow2_le_pow2 {a b : Int} (h : a ≤ b) : pow2 a ≤ pow2 b :=
  (zpow_le_zpow_iff_right₀ (by norm_num)).mpr h

theorem pow2_lt_pow2_iff {a b : Int} : pow2 a < pow2 b ↔ a < b :=
  zpow_lt_zpow_iff_right₀ (by norm_num)

theorem pow2_toNat {e : Int} (he : 0 ≤ e) : pow2 e = ((2 ^ e.toNat : Nat) : Rat) := by
  rw [← pow2_natCast, Int.toNat_of_nonneg he]

theorem pow2Le_iff {e : Int} {num den : Nat} (hd : 1 ≤ den) :
    pow2Le e num den = true ↔ pow2 e ≤ (num : Rat) / den := by
  have hdpos : (0 : Rat) < (den : Rat) := by exact_mod_cast hd
  unfold pow2Le
  by_cases he : 0 ≤ e
  · rw [if_pos he, decide_eq_true_eq, le_div_iff₀ hdpos, pow2_toNat he]
    rw [show ((2 ^ e.toNat : Nat) : Rat) * (den : Rat) = ((2 ^ e.toNat * den : Nat) : Rat) by
      push_cast; ring]
    rw [Nat.cast_le, Nat.mul_comm]
  · rw [if_neg he, decide_eq_true_eq]
    push_neg at he
    have hme : (((-e).toNat : Nat) : Int) = -e := Int.toNat_of_nonneg (by omega)
    have hpe : pow2 e = 1 / ((2 ^ (-e).toNat : Nat) : Rat) := by
      rw [← pow2_natCast, hme, pow2, pow2, zpow_neg, one_div, inv_inv]
    have hPpos : (0 : Rat) < ((2 ^ (-e).toNat : Nat) : Rat) := by positivity
    rw [hpe, div_le_div_iff₀ hPpos hdpos, one_mul]
    rw [show (num : Rat) * ((2 ^ (-e).toNat : Nat) : Rat) = ((num * 2 ^ (-e).toNat : Nat) : Rat) by
      push_cast; ring]
    rw [Nat.cast_le]

theorem ratLog2_spec {num den : Nat} (hn : 1 ≤ num) (hd : 1 ≤ den)
    (hn2 : num < 2 ^ 128) (hd2 : den < 2 ^ 128) :
    pow2 (ratLog2 num den) ≤ (num : Rat) / den ∧
      (num : Rat) / den < pow2 (ratLog2 num den + 1) := by
  have hdpos : (0 : Rat) < (den : Rat) := by exact_mod_cast hd
  simp only [ratLog2]
  obtain ⟨hn1, hnx⟩ := log2Nat_spec 128 num hn hn2
  obtain ⟨hd1, hdx⟩ := log2Nat_spec 128 den hd hd2
  set Ln := log2Nat 128 num with hLn
  set Ld := log2Nat 128 den with hLd
  have hub : (num : Rat) / den < pow2 ((Ln : Int) - Ld + 1) := by
    rw [div_lt_iff₀ hdpos]
    have h1 : (num : Rat) < ((2 ^ (Ln + 1) : Nat) : Rat) := by exact_mod_cast hnx
    have h2 : ((2 ^ Ld : Nat) : Rat) ≤ (den : Rat) := by exact_mod_cast hd1
    have h3 : pow2 ((Ln : Int) - Ld + 1) * ((2 ^ Ld : Nat) : Rat) = ((2 ^ (Ln + 1) : Nat) : Rat) := by
      rw [← pow2_natCast, ← pow2_natCast, ← pow2_add]
      congr 1
      push_cast
      ring
    calc (num : Rat) < ((2 ^ (Ln + 1) : Nat) : Rat) := h1
      _ = pow2 ((Ln : Int) - Ld + 1) * ((2 ^ Ld : Nat) : Rat) := h3.symm
      _ ≤ pow2 ((Ln : Int) - Ld + 1) * (den : Rat) :=
          mul_le_mul_of_nonneg_left h2 (le_of_lt (pow2_pos _))
  have hlb : pow2 ((Ln : Int) - Ld - 1) < (num : Rat) / den := by
    rw [lt_div_iff₀ hdpos]
    have h1 : ((2 ^ Ln : Nat) : Rat) ≤ (num : Rat) := by exact_mod_cast hn1
    have h2 : (den : Rat) < ((2 ^ (Ld + 1) : Nat) : Rat) := by exact_mod_cast hdx
    have h3 : pow2 ((Ln : Int) - Ld - 1) * ((2 ^ (Ld + 1) : Nat) : Rat) = ((2 ^ Ln : Nat) : Rat) := by
      rw [← pow2_natCast, ← pow2_natCast, ← pow2_add]
      congr 1
      push_cast
      ring
    calc pow2 ((Ln : Int) - Ld - 1) * (den : Rat)
        < pow2 ((Ln : Int) - Ld - 1) * ((2 ^ (Ld + 1) : Nat) : Rat) :=
          (mul_lt_mul_left (pow2_pos _)).mpr h2
      _ = ((2 ^ Ln : Nat) : Rat) := h3
      _ ≤ (num : Rat) := h1
  by_cases hp : pow2Le ((Ln : Int) - Ld) num den = true
  · rw [if_pos hp]
    exact ⟨(pow2Le_iff hd).mp hp, hub⟩
  · rw [if_neg hp]
    have hnotle : ¬ pow2 ((Ln : Int) - Ld) ≤ (num : Rat) / den :=
      fun h => hp ((pow2Le_iff hd).mpr h)
    push_neg at hnotle
    refine ⟨le_of_lt hlb, ?_⟩
    rw [show (Ln : Int) - Ld - 1 + 1 = (Ln : Int) - Ld by ring]
    exact hnotle

/-- The floor-log of a ratio is below any power bounding the ratio above. -/
theorem ratLog2_lt {num den : Nat} {c : Int} (hn : 1 ≤ num) (hd : 1 ≤ den)
    (hn2 : num < 2 ^ 128) (hd2 : den < 2 ^ 128)
    (hx : (num : Rat) / den < pow2 c) : ratLog2 num den < c :=
  pow2_lt_pow2_iff.mp (lt_of_le_of_lt (ratLog2_spec hn hd hn2 hd2).1 hx)

/-- The floor-log of a ratio is at least any power bounding the ratio below. -/
theorem le_ratLog2 {num den : Nat} {c : Int} (hn : 1 ≤ num) (hd : 1 ≤ den)
    (hn2 : num < 2 ^ 128) (hd2 : den < 2 ^ 128)
    (hx : pow2 c ≤ (num : Rat) / den) : c ≤ ratLog2 num den := by
  have := pow2_lt_pow2_iff.mp (lt_of_le_of_lt hx (ratLog2_spec hn hd hn2 hd2).2)
  omega

theorem shiftFrac_den_pos {num den : Nat} (hd : 1 ≤ den) (k : Int) :
    1 ≤ (shiftFrac num den k).2 := by
  unfold shiftFrac
  split
  · exact hd
  · exact Nat.one_le_iff_ne_zero.mpr (Nat.mul_ne_zero (by omega) (Nat.pos_iff_ne_zero.mp (Nat.pos_pow_of_pos _ (by norm_num))))

theorem shiftFrac_num_pos {num den : Nat} (hn : 1 ≤ num) (k : Int) :
    1 ≤ (shiftFrac num den k).1 := by
  unfold shiftFrac
  split
  · exact Nat.one_le_iff_ne_zero.mpr (Nat.mul_ne_zero (by omega) (Nat.pos_iff_ne_zero.mp (Nat.pos_pow_of_pos _ (by norm_num))))
  · exact hn

theorem shiftFrac_val {num den : Nat} (hd : 1 ≤ den) (k : Int) :
    ((shiftFrac num den k).1 : Rat) / ((shiftFrac num den k).2 : Rat) =
      (num : Rat) / den * pow2 k := by
  have hdpos : (0 : Rat) < (den : Rat) := by exact_mod_cast hd
  unfold shiftFrac
  by_cases hk : 0 ≤ k
  · rw [if_pos hk]
    dsimp only
    rw [pow2_toNat hk]
    push_cast
    field_simp
  · rw [if_neg hk]
    dsimp only
    have hme : (((-k).toNat : Nat) : Int) = -k := Int.toNat_of_nonneg (by omega)
    have hpk : pow2 k = 1 / ((2 ^ (-k).toNat : Nat) : Rat) := by
      rw [← pow2_natCast, hme, pow2, pow2, zpow_neg, one_div, inv_inv]
    rw [hpk]
    have hPpos : (0 : Rat) < ((2 ^ (-k).toNat : Nat) : Rat) := by positivity
    push_cast
    field_simp

/-- Rounding to nearest never overshoots by more than half: rne ≤ x + 1/2. -/
theorem rne_le {num den : Nat} (hd : 1 ≤ den) :
    2 * rne num den * den ≤ 2 * num + den := by
  simp only [rne]
  have hqr : den * (num / den) + num % den = num := Nat.div_add_mod num den
  have hrlt : num % den < den := Nat.mod_lt _ (by omega)
  generalize hq : num / den = q at *
  generalize hr : num % den = r at *
  by_cases h1 : 2 * r < den
  · rw [if_pos h1]
    nlinarith [hqr, hrlt]
  · rw [if_neg h1]
    have h1b : den ≤ 2 * r := Nat.le_of_not_lt h1
    by_cases h2 : den < 2 * r
    · rw [if_pos h2]
      nlinarith [hqr, hrlt]
    · rw [if_neg h2]
      by_cases h3 : q % 2 = 0
      · rw [if_pos h3]
        nlinarith [hqr, hrlt]
      · rw [if_neg h3]
        nlinarith [hqr, hrlt]

/-- Rounding to nearest never undershoots by more than half: x - 1/2 ≤ rne. -/
theorem rne_ge {num den : Nat} (hd : 1 ≤ den) :
    2 * num ≤ 2 * rne num den * den + den := by
  simp only [rne]
  have hqr : den * (num / den) + num % den = num := Nat.div_add_mod num den
  have hrlt : num % den < den := Nat.mod_lt _ (by omega)
  generalize hq : num / den = q at *
  generalize hr : num % den = r at *
  by_cases h1 : 2 * r < den
  · rw [if_pos h1]
    nlinarith [hqr, hrlt]
  · rw [if_neg h1]
    have h1b : den ≤ 2 * r := Nat.le_of_not_lt h1
    by_cases h2 : den < 2 * r
    · rw [if_pos h2]
      nlinarith [hqr, hrlt]
    · rw [if_neg h2]
      by_cases h3 : q % 2 = 0
      · rw [if_pos h3]
        nlinarith [hqr, hrlt]
      · rw [if_neg h3]
        nlinarith [hqr, hrlt]

/-- At an exact tie the result is even (ties to even). -/
theorem rne_even {num den : Nat} (_hd : 1 ≤ den) (ht : 2 * (num % den) = den) :
    rne num den % 2 = 0 := by
  simp only [rne]
  rw [if_neg (by omega), if_neg (by omega)]
  by_cases h3 : num / den % 2 = 0
  · rw [if_pos h3]
    exact h3
  · rw [if_neg h3]
    omega

theorem rne_int (num : Nat) : rne num 1 = num := by
  simp [rne, Nat.mod_one, Nat.div_one]

theorem rne_zero (den : Nat) : rne 0 den = 0 := by
  simp [rne, Nat.zero_mod, Nat.zero_div]

/-- Round to nearest, ties to even, is monotone in the rational argument. -/
theorem rne_mono {n1 d1 n2 d2 : Nat} (hd1 : 1 ≤ d1) (hd2 : 1 ≤ d2)
    (h : n1 * d2 ≤ n2 * d1) : rne n1 d1 ≤ rne n2 d2 := by
  by_contra hcon
  push_neg at hcon
  have hA := @rne_le n1 d1 hd1
  have hB := @rne_ge n2 d2 hd2
  have hE1 : 2 * (n1 % d1) = d1 → rne n1 d1 % 2 = 0 := rne_even hd1
  have hE2 : 2 * (n2 % d2) = d2 → rne n2 d2 % 2 = 0 := rne_even hd2
  have hm1 : d1 * (n1 / d1) + n1 % d1 = n1 := Nat.div_add_mod n1 d1
  have hm2 : d2 * (n2 / d2) + n2 % d2 = n2 := Nat.div_add_mod n2 d2
  have hlt1 : n1 % d1 < d1 := Nat.mod_lt _ (by omega)
  have hlt2 : n2 % d2 < d2 := Nat.mod_lt _ (by omega)
  generalize hR1 : rne n1 d1 = R1 at hA hE1 hcon
  generalize hR2 : rne n2 d2 = R2 at hB hE2 hcon
  generalize hgq1 : n1 / d1 = q1 at hm1
  generalize hgr1 : n1 % d1 = r1 at hm1 hlt1 hE1
  generalize hgq2 : n2 / d2 = q2 at hm2
  generalize hgr2 : n2 % d2 = r2 at hm2 hlt2 hE2
  -- move everything to the integers
  have hAz : 2 * (R1 : Int) * d1 ≤ 2 * n1 + d1 := by exact_mod_cast hA
  have hBz : 2 * (n2 : Int) ≤ 2 * (R2 : Int) * d2 + d2 := by exact_mod_cast hB
  have hz : (n1 : Int) * d2 ≤ (n2 : Int) * d1 := by exact_mod_cast h
  have hcz : (R2 : Int) + 1 ≤ (R1 : Int) := by exact_mod_cast hcon
  have hd1z : (1 : Int) ≤ (d1 : Int) := by exact_mod_cast hd1
  have hd2z : (1 : Int) ≤ (d2 : Int) := by exact_mod_cast hd2
  have hm1z : (d1 : Int) * q1 + r1 = n1 := by exact_mod_cast hm1
  have hm2z : (d2 : Int) * q2 + r2 = n2 := by exact_mod_cast hm2
  have hlt1z : (r1 : Int) < d1 := by exact_mod_cast hlt1
  have hlt2z : (r2 : Int) < d2 := by exact_mod_cast hlt2
  have hr1z : (0 : Int) ≤ (r1 : Int) := by positivity
  have hr2z : (0 : Int) ≤ (r2 : Int) := by positivity
  -- the squeeze at the common scale d1 * d2
  have k1 := mul_le_mul_of_nonneg_right hAz (by positivity : (0 : Int) ≤ (d2 : Int))
  have k3 := mul_le_mul_of_nonneg_right hBz (by positivity : (0 : Int) ≤ (d1 : Int))
  have k5 := mul_le_mul_of_nonneg_right hcz (by positivity : (0 : Int) ≤ 2 * (d1 : Int) * d2)
  have chain1 : (2 * (n1 : Int) + d1) * d2 ≤ 2 * (R1 : Int) * d1 * d2 := by
    calc (2 * (n1 : Int) + d1) * d2 = 2 * ((n1 : Int) * d2) + d1 * d2 := by ring
      _ ≤ 2 * ((n2 : Int) * d1) + d1 * d2 := by linarith [hz]
      _ = 2 * (n2 : Int) * d1 + d1 * d2 := by ring
      _ ≤ (2 * (R2 : Int) * d2 + d2) * d1 + d1 * d2 := by linarith [k3]
      _ = ((R2 : Int) + 1) * (2 * d1 * d2) := by ring
      _ ≤ (R1 : Int) * (2 * d1 * d2) := k5
      _ = 2 * (R1 : Int) * d1 * d2 := by ring
  have tie1 : 2 * (n1 : Int) + (d1 : Int) = 2 * (R1 : Int) * d1 :=
    le_antisymm (le_of_mul_le_mul_right chain1 (by linarith)) hAz
  have chain2 : (2 * (R2 : Int) * d2 + d2) * d1 ≤ 2 * (n2 : Int) * d1 := by
    calc (2 * (R2 : Int) * d2 + d2) * d1
        = ((R2 : Int) + 1) * (2 * d1 * d2) - d1 * d2 := by ring
      _ ≤ (R1 : Int) * (2 * d1 * d2) - d1 * d2 := by linarith [k5]
      _ = (2 * (R1 : Int) * d1) * d2 - d1 * d2 := by ring
      _ ≤ (2 * (n1 : Int) + d1) * d2 - d1 * d2 := by linarith [k1]
      _ = 2 * ((n1 : Int) * d2) := by ring
      _ ≤ 2 * ((n2 : Int) * d1) := by linarith [hz]
      _ = 2 * (n2 : Int) * d1 := by ring
  have tie2 : 2 * (R2 : Int) * d2 + (d2 : Int) = 2 * (n2 : Int) :=
    le_antisymm (le_of_mul_le_mul_right chain2 (by linarith)) hBz
  have chainR : (R1 : Int) * (2 * d1 * d2) ≤ ((R2 : Int) + 1) * (2 * d1 * d2) := by
    calc (R1 : Int) * (2 * d1 * d2) = (2 * (R1 : Int) * d1) * d2 := by ring
      _ ≤ (2 * (n1 : Int) + d1) * d2 := k1
      _ = 2 * ((n1 : Int) * d2) + d1 * d2 := by ring
      _ ≤ 2 * ((n2 : Int) * d1) + d1 * d2 := by linarith [hz]
      _ = 2 * (n2 : Int) * d1 + d1 * d2 := by ring
      _ ≤ (2 * (R2 : Int) * d2 + d2) * d1 + d1 * d2 := by linarith [k3]
      _ = ((R2 : Int) + 1) * (2 * d1 * d2) := by ring
  have eqR : (R1 : Int) = (R2 : Int) + 1 :=
    le_antisymm (le_of_mul_le_mul_right chainR (by positivity)) hcz
  have hcm1 : (q1 : Int) * d1 = (d1 : Int) * q1 := by ring
  have hcm2 : (q2 : Int) * d2 = (d2 : Int) * q2 := by ring
  -- the first rounding was an exact tie, rounded up
  have hq1ge : (q1 : Int) + 1 ≤ (R1 : Int) := by
    by_contra hq
    push_neg at hq
    have hqle : (R1 : Int) ≤ (q1 : Int) := by omega
    have hmul := mul_le_mul_of_nonneg_right hqle (by positivity : (0 : Int) ≤ (d1 : Int))
    linarith [tie1, hm1z, hr1z, hmul, hcm1, hd1z]
  have hq1le : (R1 : Int) ≤ (q1 : Int) + 1 := by
    by_contra hq
    push_neg at hq
    have hqge : (q1 : Int) + 2 ≤ (R1 : Int) := by omega
    have hmul := mul_le_mul_of_nonneg_right hqge (by positivity : (0 : Int) ≤ (d1 : Int))
    linarith [tie1, hm1z, hlt1z, hmul, hcm1, hd1z]
  have htie1 : 2 * (r1 : Int) = (d1 : Int) := by
    have hq : (R1 : Int) = (q1 : Int) + 1 := by omega
    rw [hq] at tie1
    linarith [tie1, hm1z, hcm1]
  -- the second rounding was an exact tie, rounded down
  have hq2ge : (q2 : Int) ≤ (R2 : Int) := by
    by_contra hq
    push_neg at hq
    have hqle : (R2 : Int) + 1 ≤ (q2 : Int) := by omega
    have hmul := mul_le_mul_of_nonneg_right hqle (by positivity : (0 : Int) ≤ (d2 : Int))
    linarith [tie2, hm2z, hlt2z, hmul, hcm2, hd2z]
  have hq2le : (R2 : Int) ≤ (q2 : Int) := by
    by_contra hq
    push_neg at hq
    have hqge : (q2 : Int) + 1 ≤ (R2 : Int) := by omega
    have hmul := mul_le_mul_of_nonneg_right hqge (by positivity : (0 : Int) ≤ (d2 : Int))
    linarith [tie2, hm2z, hr2z, hmul, hcm2, hd2z]
  have htie2 : 2 * (r2 : Int) = (d2 : Int) := by
    have hq : (R2 : Int) = (q2 : Int) := by omega
    rw [hq] at tie2
    linarith [tie2, hm2z, hcm2]
  -- both results even, yet consecutive
  have he1 := hE1 (by exact_mod_cast htie1)
  have he2 := hE2 (by exact_mod_cast htie2)
  have heq : R1 = R2 + 1 := by exact_mod_cast eqR
  omega

theorem pow2_lit (c : Nat) : pow2 (c : Int) = (2 : Rat) ^ c := by
  rw [pow2, zpow_natCast]

theorem dval_nonneg (p : Nat × Int) : 0 ≤ dval p := by
  unfold dval
  exact div_nonneg (by positivity) (le_of_lt (pow2_pos p.2))

/-- Core facts about one binary32 rounding: mantissa range, the half-unit
rounding bounds against the scaled input, the relative error bound, and
the binade of the result. -/
theorem fl32Round_core {num den : Nat} (hn : 1 ≤ num) (hd : 1 ≤ den)
    (hn2 : num < 2 ^ 128) (hd2 : den < 2 ^ 128) :
    2 ^ 23 ≤ (fl32Round num den).1 ∧ (fl32Round num den).1 ≤ 2 ^ 24 ∧
    (fl32Round num den).2 = 23 - ratLog2 num den ∧
    ((fl32Round num den).1 : Rat) ≤
      (num : Rat) / den * pow2 (23 - ratLog2 num den) + 1 / 2 ∧
    (num : Rat) / den * pow2 (23 - ratLog2 num den) ≤ ((fl32Round num den).1 : Rat) + 1 / 2 ∧
    dval (fl32Round num den) ≤ (num : Rat) / den * ((2 ^ 24 + 1) / 2 ^ 24) ∧
    pow2 (ratLog2 num den) ≤ dval (fl32Round num den) ∧
    dval (fl32Round num den) ≤ pow2 (ratLog2 num den + 1) := by
  have hdpos : (0 : Rat) < (den : Rat) := by exact_mod_cast hd
  obtain ⟨hb1, hb2⟩ := ratLog2_spec hn hd hn2 hd2
  set e := ratLog2 num den with he
  set k : Int := 23 - e with hk
  have hpk : (0 : Rat) < pow2 k := pow2_pos k
  set p := shiftFrac num den k with hp
  have hfl : fl32Round num den = (rne p.1 p.2, k) := by
    simp only [fl32Round]
  have hp2 : 1 ≤ p.2 := shiftFrac_den_pos hd k
  have hp1 : 1 ≤ p.1 := shiftFrac_num_pos hn k
  have hp2q : (0 : Rat) < (p.2 : Rat) := by exact_mod_cast hp2
  have hpval := @shiftFrac_val num den hd k
  rw [← hp] at hpval
  have hp1v : (p.1 : Rat) = (num : Rat) / den * pow2 k * (p.2 : Rat) := by
    rw [← hpval]
    field_simp
  have hrle := @rne_le p.1 p.2 hp2
  have hrge := @rne_ge p.1 p.2 hp2
  set X : Rat := (num : Rat) / den * pow2 k with hX
  set m := rne p.1 p.2 with hm
  have hb23 : pow2 (23 : Int) = (2 : Rat) ^ (23 : Nat) := by
    rw [show (23 : Int) = ((23 : Nat) : Int) by norm_num]
    exact pow2_lit 23
  have hb24 : pow2 (24 : Int) = (2 : Rat) ^ (24 : Nat) := by
    rw [show (24 : Int) = ((24 : Nat) : Int) by norm_num]
    exact pow2_lit 24
  have hsc1 : (2 : Rat) ^ (23 : Nat) ≤ X := by
    rw [← hb23]
    calc pow2 (23 : Int) = pow2 e * pow2 k := by rw [← pow2_add]; congr 1; omega
      _ ≤ X := by
          rw [hX]
          exact mul_le_mul_of_nonneg_right hb1 (le_of_lt hpk)
  have hsc2 : X < (2 : Rat) ^ (24 : Nat) := by
    rw [← hb24]
    calc X < pow2 (e + 1) * pow2 k := by
          rw [hX]
          exact mul_lt_mul_of_pos_right hb2 hpk
      _ = pow2 (24 : Int) := by rw [← pow2_add]; congr 1; omega
  have hrleq : ((2 * m * p.2 : Nat) : Rat) ≤ ((2 * p.1 + p.2 : Nat) : Rat) := by
    exact_mod_cast hrle
  have hrgeq : ((2 * p.1 : Nat) : Rat) ≤ ((2 * m * p.2 + p.2 : Nat) : Rat) := by
    exact_mod_cast hrge
  push_cast at hrleq hrgeq
  rw [hp1v] at hrleq hrgeq
  clear_value X m p k e
  have hmle : (m : Rat) ≤ X + 1 / 2 := by
    by_contra hcon
    push_neg at hcon
    have hstep := mul_lt_mul_of_pos_right hcon hp2q
    linarith [hrleq, hstep]
  have hmge : X ≤ (m : Rat) + 1 / 2 := by
    by_contra hcon
    push_neg at hcon
    have hstep := mul_lt_mul_of_pos_right hcon hp2q
    linarith [hrgeq, hstep]
  have hmhi : m ≤ 2 ^ 24 := by
    by_contra hcon
    push_neg at hcon
    have hc2 : 2 ^ 24 + 1 ≤ m := hcon
    have hc3 : ((2 ^ 24 + 1 : Nat) : Rat) ≤ (m : Rat) := by exact_mod_cast hc2
    push_cast at hc3
    linarith [hmle, hsc2, hc3]
  have hmlo : 2 ^ 23 ≤ m := by
    by_contra hcon
    push_neg at hcon
    have hc2 : m + 1 ≤ 2 ^ 23 := hcon
    have hc3 : (m : Rat) + 1 ≤ ((2 ^ 23 : Nat) : Rat) := by exact_mod_cast hc2
    push_cast at hc3
    linarith [hmge, hsc1, hc3]
  have hdv : dval (fl32Round num den) = (m : Rat) / pow2 k := by
    rw [hfl]
    simp only [dval]
  have hmloq : ((2 ^ 23 : Nat) : Rat) ≤ (m : Rat) := by exact_mod_cast hmlo
  have hmhiq : (m : Rat) ≤ ((2 ^ 24 : Nat) : Rat) := by exact_mod_cast hmhi
  push_cast at hmloq hmhiq
  refine ⟨by rw [hfl]; exact hmlo, by rw [hfl]; exact hmhi, by rw [hfl], ?_, ?_, ?_, ?_, ?_⟩
  · rw [hfl]
    dsimp only
    exact hmle
  · rw [hfl]
    dsimp only
    exact hmge
  · rw [hdv, div_le_iff₀ hpk]
    have hgoal : (num : Rat) / den * ((2 ^ 24 + 1) / 2 ^ 24) * pow2 k
        = X + X / 2 ^ 24 := by
      rw [hX]
      ring
    rw [hgoal]
    have hhalf : (1 : Rat) / 2 ≤ X / 2 ^ 24 := by
      have h2 : ((2 : Rat)) ^ (24 : Nat) = 2 * 2 ^ (23 : Nat) := by norm_num
      rw [div_le_div_iff₀ (by norm_num) (by norm_num), h2]
      linarith [hsc1]
    linarith [hmle, hhalf]
  · rw [hdv, le_div_iff₀ hpk]
    calc pow2 e * pow2 k = pow2 (23 : Int) := by rw [← pow2_add]; congr 1; omega
      _ = (2 : Rat) ^ (23 : Nat) := hb23
      _ ≤ (m : Rat) := hmloq
  · rw [hdv, div_le_iff₀ hpk]
    calc (m : Rat) ≤ (2 : Rat) ^ (24 : Nat) := hmhiq
      _ = pow2 (24 : Int) := hb24.symm
      _ = pow2 (e + 1) * pow2 k := by rw [← pow2_add]; congr 1; omega

/-- Rounding zero gives zero (with mantissa zero). -/
theorem fl32Round_zero (den : Nat) :
    (fl32Round 0 den).1 = 0 ∧ dval (fl32Round 0 den) = 0 := by
  have h1 : (fl32Round 0 den).1 = 0 := by
    simp only [fl32Round, shiftFrac]
    split
    · dsimp only
      rw [Nat.zero_mul]
      exact rne_zero _
    · dsimp only
      exact rne_zero _
  refine ⟨h1, ?_⟩
  unfold dval
  rw [h1]
  simp

/-- Integers below 2^24 are represented exactly. -/
theorem fl32Round_int {n : Nat} (h1 : 1 ≤ n) (h2 : n < 2 ^ 24) :
    dval (fl32Round n 1) = (n : Rat) := by
  have hn2 : n < 2 ^ 128 := Nat.lt_of_lt_of_le h2 (by norm_num)
  have hle : pow2 0 ≤ (n : Rat) / 1 := by
    rw [pow2, zpow_zero]
    rw [div_one]
    exact_mod_cast h1
  have hlt : (n : Rat) / 1 < pow2 24 := by
    rw [div_one, show (24 : Int) = ((24 : Nat) : Int) by norm_num, pow2_lit]
    exact_mod_cast h2
  have he0 : 0 ≤ ratLog2 n 1 := le_ratLog2 h1 (by norm_num) hn2 (by norm_num) hle
  have helt : ratLog2 n 1 < 24 := ratLog2_lt h1 (by norm_num) hn2 (by norm_num) hlt
  have hk0 : 0 ≤ 23 - ratLog2 n 1 := by omega
  simp only [fl32Round, shiftFrac]
  rw [if_pos hk0]
  dsimp only
  rw [rne_int]
  unfold dval
  dsimp only
  have hcast : ((n * 2 ^ ((23 : Int) - ratLog2 n 1).toNat : Nat) : Rat) =
      (n : Rat) * pow2 (23 - ratLog2 n 1) := by
    rw [pow2_toNat hk0]
    push_cast
    ring
  rw [hcast]
  rw [mul_div_assoc, div_self (ne_of_gt (pow2_pos _)), mul_one]

/-- Binary32 rounding is monotone. -/
theorem fl32Round_mono {n1 d1 n2 d2 : Nat} (hn1 : 1 ≤ n1) (hd1 : 1 ≤ d1)
    (hn12 : n1 < 2 ^ 128) (hd12 : d1 < 2 ^ 128)
    (hn2 : 1 ≤ n2) (hd2 : 1 ≤ d2) (hn22 : n2 < 2 ^ 128) (hd22 : d2 < 2 ^ 128)
    (hx : (n1 : Rat) / d1 ≤ (n2 : Rat) / d2) :
    dval (fl32Round n1 d1) ≤ dval (fl32Round n2 d2) := by
  obtain ⟨-, -, -, -, -, -, hbin1lo, hbin1hi⟩ := fl32Round_core hn1 hd1 hn12 hd12
  obtain ⟨-, -, -, -, -, -, hbin2lo, hbin2hi⟩ := fl32Round_core hn2 hd2 hn22 hd22
  have he12 : ratLog2 n1 d1 ≤ ratLog2 n2 d2 := by
    have h1 := (ratLog2_spec hn1 hd1 hn12 hd12).1
    have h2 := (ratLog2_spec hn2 hd2 hn22 hd22).2
    have h3 := pow2_lt_pow2_iff.mp (lt_of_le_of_lt (le_trans h1 hx) h2)
    omega
  rcases eq_or_lt_of_le he12 with heq | hlt
  · -- same binade: both use the same scale; compare mantissas with rne_mono
    have hv1 : dval (fl32Round n1 d1) =
        ((rne (shiftFrac n1 d1 (23 - ratLog2 n1 d1)).1
          (shiftFrac n1 d1 (23 - ratLog2 n1 d1)).2 : Nat) : Rat) /
          pow2 (23 - ratLog2 n1 d1) := by
      simp only [fl32Round, dval]
    have hv2 : dval (fl32Round n2 d2) =
        ((rne (shiftFrac n2 d2 (23 - ratLog2 n1 d1)).1
          (shiftFrac n2 d2 (23 - ratLog2 n1 d1)).2 : Nat) : Rat) /
          pow2 (23 - ratLog2 n1 d1) := by
      simp only [fl32Round, dval]
      rw [← heq]
    have hval1 := @shiftFrac_val n1 d1 hd1 (23 - ratLog2 n1 d1)
    have hval2 := @shiftFrac_val n2 d2 hd2 (23 - ratLog2 n1 d1)
    have hp21 : 1 ≤ (shiftFrac n1 d1 (23 - ratLog2 n1 d1)).2 :=
      shiftFrac_den_pos hd1 _
    have hp22 : 1 ≤ (shiftFrac n2 d2 (23 - ratLog2 n1 d1)).2 :=
      shiftFrac_den_pos hd2 _
    have hcross : (shiftFrac n1 d1 (23 - ratLog2 n1 d1)).1 *
        (shiftFrac n2 d2 (23 - ratLog2 n1 d1)).2 ≤
        (shiftFrac n2 d2 (23 - ratLog2 n1 d1)).1 *
        (shiftFrac n1 d1 (23 - ratLog2 n1 d1)).2 := by
      have hle : ((shiftFrac n1 d1 (23 - ratLog2 n1 d1)).1 : Rat) /
          (shiftFrac n1 d1 (23 - ratLog2 n1 d1)).2 ≤
          ((shiftFrac n2 d2 (23 - ratLog2 n1 d1)).1 : Rat) /
          (shiftFrac n2 d2 (23 - ratLog2 n1 d1)).2 := by
        rw [hval1, hval2]
        exact mul_le_mul_of_nonneg_right hx (le_of_lt (pow2_pos _))
      rw [div_le_div_iff₀ (by exact_mod_cast hp21) (by exact_mod_cast hp22)] at hle
      exact_mod_cast hle
    have hrm := rne_mono hp21 hp22 hcross
    rw [hv1, hv2]
    have hrmq : ((rne (shiftFrac n1 d1 (23 - ratLog2 n1 d1)).1
        (shiftFrac n1 d1 (23 - ratLog2 n1 d1)).2 : Nat) : Rat) ≤
        ((rne (shiftFrac n2 d2 (23 - ratLog2 n1 d1)).1
        (shiftFrac n2 d2 (23 - ratLog2 n1 d1)).2 : Nat) : Rat) := by
      exact_mod_cast hrm
    exact div_le_div_of_nonneg_right hrmq (le_of_lt (pow2_pos _))
  · calc dval (fl32Round n1 d1) ≤ pow2 (ratLog2 n1 d1 + 1) := hbin1hi
      _ ≤ pow2 (ratLog2 n2 d2) := pow2_le_pow2 (by omega)
      _ ≤ dval (fl32Round n2 d2) := hbin2lo

theorem trunc32_nonneg (p : Nat × Int) : 0 ≤ trunc32 p := by
  unfold trunc32
  split
  · positivity
  · positivity

theorem trunc32_le (p : Nat × Int) : ((trunc32 p : Int) : Rat) ≤ dval p := by
  unfold trunc32 dval
  by_cases hk : 0 ≤ p.2
  · rw [if_pos hk, pow2_toNat hk]
    have hc : ((p.1 / 2 ^ p.2.toNat : Nat) : Rat) ≤ (p.1 : Rat) / ((2 ^ p.2.toNat : Nat) : Rat) :=
      Nat.cast_div_le
    exact_mod_cast hc
  · rw [if_neg hk]
    have hme : (((-p.2).toNat : Nat) : Int) = -p.2 := Int.toNat_of_nonneg (by omega)
    have hpk : pow2 p.2 = 1 / ((2 ^ (-p.2).toNat : Nat) : Rat) := by
      rw [← pow2_natCast, hme, pow2, pow2, zpow_neg, one_div, inv_inv]
    rw [hpk, one_div, div_eq_mul_inv, inv_inv]
    push_cast
    exact le_refl _

theorem lt_trunc32_add_one (p : Nat × Int) : dval p < (trunc32 p : Int) + 1 := by
  unfold trunc32 dval
  by_cases hk : 0 ≤ p.2
  · rw [if_pos hk, pow2_toNat hk]
    have h2 : (0 : Rat) < ((2 ^ p.2.toNat : Nat) : Rat) := by positivity
    rw [div_lt_iff₀ h2, Int.cast_natCast]
    have hmod : 2 ^ p.2.toNat * (p.1 / 2 ^ p.2.toNat) + p.1 % 2 ^ p.2.toNat = p.1 :=
      Nat.div_add_mod p.1 (2 ^ p.2.toNat)
    have hlt : p.1 % 2 ^ p.2.toNat < 2 ^ p.2.toNat := Nat.mod_lt _ (by positivity)
    have hmodq : ((2 ^ p.2.toNat : Nat) : Rat) * ((p.1 / 2 ^ p.2.toNat : Nat) : Rat) +
        ((p.1 % 2 ^ p.2.toNat : Nat) : Rat) = (p.1 : Rat) := by exact_mod_cast hmod
    have hltq : ((p.1 % 2 ^ p.2.toNat : Nat) : Rat) < ((2 ^ p.2.toNat : Nat) : Rat) := by
      exact_mod_cast hlt
    nlinarith [hmodq, hltq]
  · rw [if_neg hk]
    have hme : (((-p.2).toNat : Nat) : Int) = -p.2 := Int.toNat_of_nonneg (by omega)
    have hpk : pow2 p.2 = 1 / ((2 ^ (-p.2).toNat : Nat) : Rat) := by
      rw [← pow2_natCast, hme, pow2, pow2, zpow_neg, one_div, inv_inv]
    rw [hpk, one_div, div_eq_mul_inv, inv_inv]
    push_cast
    linarith

theorem trunc32_mono {p q : Nat × Int} (h : dval p ≤ dval q) : trunc32 p ≤ trunc32 q := by
  have h1 := trunc32_le p
  have h2 := lt_trunc32_add_one q
  have h3 : ((trunc32 p : Int) : Rat) < (trunc32 q : Int) + 1 :=
    lt_of_le_of_lt (le_trans h1 h) h2
  have h4 : (trunc32 p : Int) < trunc32 q + 1 := by exact_mod_cast h3
  omega

theorem trunc32_le_int {p : Nat × Int} {N : Int} (h : dval p ≤ (N : Rat)) :
    trunc32 p ≤ N := by
  have h1 := trunc32_le p
  have h3 : ((trunc32 p : Int) : Rat) ≤ (N : Rat) := le_trans h1 h
  exact_mod_cast h3

theorem shiftFrac_zero_num (den : Nat) (k : Int) : (shiftFrac 0 den k).1 = 0 := by
  unfold shiftFrac
  split
  · dsimp only
    exact Nat.zero_mul _
  · rfl

theorem trunc32_zero {p : Nat × Int} (h : p.1 = 0) : trunc32 p = 0 := by
  unfold trunc32
  rw [h]
  split
  · simp
  · simp

/-- Conversion of a small natural number to binary32 is exact. -/
theorem fl32Round_nat {n : Nat} (h2 : n < 2 ^ 24) :
    dval (fl32Round n 1) = (n : Rat) := by
  by_cases h1 : 1 ≤ n
  · exact fl32Round_int h1 h2
  · have hz : n = 0 := by omega
    subst hz
    rw [(fl32Round_zero 1).2]
    simp

/-- The scale of a converted small natural number lies in [0, 23]. -/
theorem fl32Round_int_scale {n : Nat} (h1 : 1 ≤ n) (h2 : n < 2 ^ 24) :
    0 ≤ (fl32Round n 1).2 ∧ (fl32Round n 1).2 ≤ 23 := by
  have hn2 : n < 2 ^ 128 := Nat.lt_of_lt_of_le h2 (by norm_num)
  have hle : pow2 0 ≤ (n : Rat) / 1 := by
    rw [pow2, zpow_zero, div_one]
    exact_mod_cast h1
  have hlt : (n : Rat) / 1 < pow2 24 := by
    rw [div_one, show (24 : Int) = ((24 : Nat) : Int) by norm_num, pow2_lit]
    exact_mod_cast h2
  have he0 : 0 ≤ ratLog2 n 1 := le_ratLog2 h1 (by norm_num) hn2 (by norm_num) hle
  have helt : ratLog2 n 1 < 24 := ratLog2_lt h1 (by norm_num) hn2 (by norm_num) hlt
  have hsc : (fl32Round n 1).2 = 23 - ratLog2 n 1 :=
    (fl32Round_core h1 (by norm_num) hn2 (by norm_num)).2.2.1
  omega

/-- With nonnegative operands the sign logic is the identity. -/
theorem floatMulDiv_of_nonneg {E D T : Int} (hE : 0 ≤ E) (hD : 0 ≤ D) (hT : 0 ≤ T) :
    floatMulDiv E D T =
      trunc32 (mul32 (fl32Round E.natAbs 1)
        (div32 (fl32Round D.natAbs 1) (fl32Round T.natAbs 1))) := by
  unfold floatMulDiv
  have h1 : decide (E < 0) = false := decide_eq_false (by omega)
  have h2 : decide (D < 0) = false := decide_eq_false (by omega)
  have h3 : decide (T < 0) = false := decide_eq_false (by omega)
  simp [h1, h2, h3]

theorem floatMulDiv_nonneg {E D T : Int} (hE : 0 ≤ E) (hD : 0 ≤ D) (hT : 0 ≤ T) :
    0 ≤ floatMulDiv E D T := by
  rw [floatMulDiv_of_nonneg hE hD hT]
  exact trunc32_nonneg _

theorem mul32_eq {a b : Nat × Int} (hs : 0 < a.2 + b.2) :
    mul32 a b = fl32Round (a.1 * b.1) (2 ^ (a.2 + b.2).toNat) := by
  unfold mul32 shiftFrac
  rw [if_neg (by omega : ¬ (0 : Int) ≤ 0 - (a.2 + b.2))]
  dsimp only
  congr 1
  rw [Nat.one_mul]
  congr 1
  omega

theorem mul32_ratio_val {a b : Nat × Int} (hs : 0 ≤ a.2 + b.2) :
    ((a.1 * b.1 : Nat) : Rat) / ((2 ^ (a.2 + b.2).toNat : Nat) : Rat) = dval a * dval b := by
  unfold dval
  rw [← pow2_toNat hs, pow2_add]
  have h1 : pow2 a.2 ≠ 0 := ne_of_gt (pow2_pos _)
  have h2 : pow2 b.2 ≠ 0 := ne_of_gt (pow2_pos _)
  push_cast
  field_simp

theorem mul32_num_zero {a b : Nat × Int} (h : a.1 * b.1 = 0) : (mul32 a b).1 = 0 := by
  show (fl32Round (shiftFrac (a.1 * b.1) 1 (0 - (a.2 + b.2))).1
    (shiftFrac (a.1 * b.1) 1 (0 - (a.2 + b.2))).2).1 = 0
  rw [h, shiftFrac_zero_num]
  exact (fl32Round_zero _).1

theorem div32_num_zero {a b : Nat × Int} (h : a.1 = 0) : (div32 a b).1 = 0 := by
  show (fl32Round (shiftFrac a.1 b.1 (b.2 - a.2)).1 (shiftFrac a.1 b.1 (b.2 - a.2)).2).1 = 0
  rw [h, shiftFrac_zero_num]
  exact (fl32Round_zero _).1

/-- When either factor of the float pipeline is zero, the whole expression
is zero (for any signs). -/
theorem floatMulDiv_zero {E D T : Int} (h : E.natAbs * D.natAbs = 0) :
    floatMulDiv E D T = 0 := by
  have hmag : (mul32 (fl32Round E.natAbs 1)
      (div32 (fl32Round D.natAbs 1) (fl32Round T.natAbs 1))).1 = 0 := by
    rcases Nat.mul_eq_zero.mp h with h0 | h0
    · apply mul32_num_zero
      rw [h0, (fl32Round_zero 1).1, Nat.zero_mul]
    · apply mul32_num_zero
      rw [div32_num_zero (by rw [h0]; exact (fl32Round_zero 1).1), Nat.mul_zero]
  show (if (decide (E < 0)).xor ((decide (D < 0)).xor (decide (T < 0)))
    then 0 - trunc32 (mul32 (fl32Round E.natAbs 1)
      (div32 (fl32Round D.natAbs 1) (fl32Round T.natAbs 1)))
    else trunc32 (mul32 (fl32Round E.natAbs 1)
      (div32 (fl32Round D.natAbs 1) (fl32Round T.natAbs 1)))) = 0
  rw [trunc32_zero hmag]
  split <;> norm_num

/-- Flipping the sign of the middle operand flips the sign of the result:
the float pipeline computes a magnitude from absolute values and applies
the sign afterwards, exactly as C truncation toward zero is odd. -/
theorem floatMulDiv_neg_of_nonpos {E D T : Int} (hE : 0 ≤ E) (hT : 0 < T) (hD : D ≤ 0) :
    floatMulDiv E D T = 0 - floatMulDiv E (0 - D) T := by
  rcases eq_or_lt_of_le hD with h0 | hneg
  · subst h0
    rw [floatMulDiv_zero (by simp), floatMulDiv_zero (by simp)]
    omega
  · have h1 : (0 - D).natAbs = D.natAbs := by omega
    have hE' : decide (E < 0) = false := decide_eq_false (by omega)
    have hT' : decide (T < 0) = false := decide_eq_false (by omega)
    have hD1 : decide (D < 0) = true := decide_eq_true hneg
    have hD2 : decide (0 - D < 0) = false := decide_eq_false (by omega)
    simp only [floatMulDiv, h1, hE', hT', hD1, hD2]
    simp

/-- Facts about the binary32 quotient of two exactly-converted integers in
the program's in-domain ranges: mantissa range, scale range, and the
one-rounding relative error bound. -/
theorem div32_facts {D T : Nat} (hD1 : 1 ≤ D) (hD2 : D ≤ 255) (hT1 : 1 ≤ T)
    (hT2 : T ≤ 86400) :
    2 ^ 23 ≤ (div32 (fl32Round D 1) (fl32Round T 1)).1 ∧
    (div32 (fl32Round D 1) (fl32Round T 1)).1 ≤ 2 ^ 24 ∧
    16 ≤ (div32 (fl32Round D 1) (fl32Round T 1)).2 ∧
    (div32 (fl32Round D 1) (fl32Round T 1)).2 ≤ 40 ∧
    dval (div32 (fl32Round D 1) (fl32Round T 1)) ≤
      (D : Rat) / T * ((2 ^ 24 + 1) / 2 ^ 24) := by
  have hD24 : D < 2 ^ 24 := by omega
  have hT24 : T < 2 ^ 24 := by omega
  have hD128 : D < 2 ^ 128 := by omega
  have hT128 : T < 2 ^ 128 := by omega
  have hcoreD := @fl32Round_core D 1 hD1 (by norm_num) hD128 (by norm_num)
  have hcoreT := @fl32Round_core T 1 hT1 (by norm_num) hT128 (by norm_num)
  obtain ⟨hsa1, hsa2⟩ := fl32Round_int_scale hD1 hD24
  obtain ⟨hsb1, hsb2⟩ := fl32Round_int_scale hT1 hT24
  have hvalD : dval (fl32Round D 1) = (D : Rat) := fl32Round_int hD1 hD24
  have hvalT : dval (fl32Round T 1) = (T : Rat) := fl32Round_int hT1 hT24
  set a := fl32Round D 1 with ha
  set b := fl32Round T 1 with hb
  have ha1 : 1 ≤ a.1 := le_trans (by norm_num) hcoreD.1
  have hb1 : 1 ≤ b.1 := le_trans (by norm_num) hcoreT.1
  have hp1 : 1 ≤ (shiftFrac a.1 b.1 (b.2 - a.2)).1 := shiftFrac_num_pos ha1 _
  have hp2 : 1 ≤ (shiftFrac a.1 b.1 (b.2 - a.2)).2 := shiftFrac_den_pos hb1 _
  have hp1b : (shiftFrac a.1 b.1 (b.2 - a.2)).1 < 2 ^ 128 := by
    simp only [shiftFrac]
    split
    · dsimp only
      have h1 : (b.2 - a.2).toNat ≤ 23 := by omega
      have h2 : 2 ^ (b.2 - a.2).toNat ≤ 2 ^ 23 := Nat.pow_le_pow_right (by norm_num) h1
      calc a.1 * 2 ^ (b.2 - a.2).toNat ≤ 2 ^ 24 * 2 ^ 23 := Nat.mul_le_mul hcoreD.2.1 h2
        _ < 2 ^ 128 := by norm_num
    · exact lt_of_le_of_lt hcoreD.2.1 (by norm_num)
  have hp2b : (shiftFrac a.1 b.1 (b.2 - a.2)).2 < 2 ^ 128 := by
    simp only [shiftFrac]
    split
    · exact lt_of_le_of_lt hcoreT.2.1 (by norm_num)
    · dsimp only
      have h1 : (-(b.2 - a.2)).toNat ≤ 23 := by omega
      have h2 : 2 ^ (-(b.2 - a.2)).toNat ≤ 2 ^ 23 := Nat.pow_le_pow_right (by norm_num) h1
      calc b.1 * 2 ^ (-(b.2 - a.2)).toNat ≤ 2 ^ 24 * 2 ^ 23 := Nat.mul_le_mul hcoreT.2.1 h2
        _ < 2 ^ 128 := by norm_num
  have hval := @shiftFrac_val a.1 b.1 hb1 (b.2 - a.2)
  have hb1pos : (0 : Rat) < (b.1 : Rat) := by
    exact_mod_cast Nat.lt_of_lt_of_le Nat.zero_lt_one hb1
  have hsplit : pow2 (b.2 - a.2) = pow2 b.2 / pow2 a.2 := by
    rw [eq_div_iff (ne_of_gt (pow2_pos _)), ← pow2_add]
    congr 1
    ring
  have hratio : ((shiftFrac a.1 b.1 (b.2 - a.2)).1 : Rat) /
      ((shiftFrac a.1 b.1 (b.2 - a.2)).2 : Rat) = (D : Rat) / T := by
    rw [hval, hsplit, ← hvalD, ← hvalT]
    unfold dval
    have h1 : (b.1 : Rat) ≠ 0 := ne_of_gt hb1pos
    have h2 : pow2 a.2 ≠ 0 := ne_of_gt (pow2_pos _)
    have h3 : pow2 b.2 ≠ 0 := ne_of_gt (pow2_pos _)
    field_simp
    ring
  have hTpos : (0 : Rat) < (T : Rat) := by
    exact_mod_cast Nat.lt_of_lt_of_le Nat.zero_lt_one hT1
  have hlo : pow2 (-17) ≤ ((shiftFrac a.1 b.1 (b.2 - a.2)).1 : Rat) /
      ((shiftFrac a.1 b.1 (b.2 - a.2)).2 : Rat) := by
    rw [hratio]
    have hv17 : pow2 (-17 : Int) = 1 / 131072 := by
      rw [pow2, show (-17 : Int) = -((17 : Nat) : Int) by norm_num, zpow_neg, zpow_natCast]
      norm_num
    rw [hv17, div_le_div_iff₀ (by norm_num) hTpos]
    have hDq : (1 : Rat) ≤ (D : Rat) := by exact_mod_cast hD1
    have hTq : (T : Rat) ≤ 86400 := by exact_mod_cast hT2
    linarith
  have hhi : ((shiftFrac a.1 b.1 (b.2 - a.2)).1 : Rat) /
      ((shiftFrac a.1 b.1 (b.2 - a.2)).2 : Rat) < pow2 8 := by
    rw [hratio]
    have hv8 : pow2 (8 : Int) = 256 := by
      rw [pow2, show (8 : Int) = ((8 : Nat) : Int) by norm_num, zpow_natCast]
      norm_num
    rw [hv8, div_lt_iff₀ hTpos]
    have hDq : (D : Rat) ≤ 255 := by exact_mod_cast hD2
    have hTq : (1 : Rat) ≤ (T : Rat) := by exact_mod_cast hT1
    linarith
  have hrlo : (-17 : Int) ≤ ratLog2 (shiftFrac a.1 b.1 (b.2 - a.2)).1
      (shiftFrac a.1 b.1 (b.2 - a.2)).2 := le_ratLog2 hp1 hp2 hp1b hp2b hlo
  have hrhi : ratLog2 (shiftFrac a.1 b.1 (b.2 - a.2)).1
      (shiftFrac a.1 b.1 (b.2 - a.2)).2 < 8 := ratLog2_lt hp1 hp2 hp1b hp2b hhi
  obtain ⟨hc1, hc2, hc3, -, -, hc6, -, -⟩ := fl32Round_core hp1 hp2 hp1b hp2b
  have hdiveq : div32 a b = fl32Round (shiftFrac a.1 b.1 (b.2 - a.2)).1
      (shiftFrac a.1 b.1 (b.2 - a.2)).2 := rfl
  rw [hdiveq]
  refine ⟨hc1, hc2, by rw [hc3]; omega, by rw [hc3]; omega, ?_⟩
  refine le_trans hc6 ?_
  rw [hratio]

/-- In-domain upper bound: with `0 <= E < T <= 86400` and `0 <= D <= 255`,
the float pipeline never exceeds `D` — the two roundings lose at most a
factor `(1 + 2^-24)^2`, absorbed by `E <= T - 1`. -/
theorem floatMulDiv_le {E D T : Int} (hE0 : 0 ≤ E) (hET : E < T) (hT86 : T ≤ 86400)
    (hD0 : 0 ≤ D) (hD255 : D ≤ 255) : floatMulDiv E D T ≤ D := by
  have hT0 : 0 < T := by omega
  by_cases hEz : E = 0
  · rw [hEz, floatMulDiv_zero (by simp : (0 : Int).natAbs * D.natAbs = 0)]
    exact hD0
  by_cases hDz : D = 0
  · subst hDz
    rw [floatMulDiv_zero (by simp : E.natAbs * (0 : Int).natAbs = 0)]
  rw [floatMulDiv_of_nonneg hE0 hD0 hT0.le]
  set En := E.natAbs with hEn
  set Dn := D.natAbs with hDn
  set Tn := T.natAbs with hTn
  have hEn1 : 1 ≤ En := by omega
  have hDn1 : 1 ≤ Dn := by omega
  have hTn1 : 1 ≤ Tn := by omega
  have hDn255 : Dn ≤ 255 := by omega
  have hTn86 : Tn ≤ 86400 := by omega
  have hEnT : En < Tn := by omega
  have hEn24 : En < 2 ^ 24 := by omega
  obtain ⟨hq1, hq2, hq3, hq4, hq5⟩ := div32_facts hDn1 hDn255 hTn1 hTn86
  set q := div32 (fl32Round Dn 1) (fl32Round Tn 1) with hq
  obtain ⟨hsE1, hsE2⟩ := fl32Round_int_scale hEn1 hEn24
  have hvE : dval (fl32Round En 1) = (En : Rat) := fl32Round_int hEn1 hEn24
  have hcoreE := @fl32Round_core En 1 hEn1 (by norm_num) (by omega) (by norm_num)
  set fE := fl32Round En 1 with hfE
  have hfE1 : 1 ≤ fE.1 := le_trans (by norm_num) hcoreE.1
  clear_value En Dn Tn q fE
  have hspos : (0 : Int) < fE.2 + q.2 := by omega
  rw [mul32_eq hspos]
  have hn1 : 1 ≤ fE.1 * q.1 :=
    Nat.one_le_iff_ne_zero.mpr (Nat.mul_ne_zero (by omega) (by omega))
  have hd1 : 1 ≤ 2 ^ (fE.2 + q.2).toNat := Nat.one_le_pow _ 2 (by norm_num)
  have hn128 : fE.1 * q.1 < 2 ^ 128 := by
    calc fE.1 * q.1 ≤ 2 ^ 24 * 2 ^ 24 := Nat.mul_le_mul hcoreE.2.1 hq2
      _ < 2 ^ 128 := by norm_num
  have hd128 : 2 ^ (fE.2 + q.2).toNat < 2 ^ 128 := by
    have hle : (fE.2 + q.2).toNat ≤ 64 := by omega
    calc (2 : Nat) ^ (fE.2 + q.2).toNat ≤ 2 ^ 64 := Nat.pow_le_pow_right (by norm_num) hle
      _ < 2 ^ 128 := by norm_num
  obtain ⟨-, -, -, -, -, hm6, -, -⟩ := fl32Round_core hn1 hd1 hn128 hd128
  have hprod : ((fE.1 * q.1 : Nat) : Rat) / ((2 ^ (fE.2 + q.2).toNat : Nat) : Rat)
      = dval fE * dval q := mul32_ratio_val (by omega)
  rw [hprod, hvE] at hm6
  have hstep : dval (fl32Round (fE.1 * q.1) (2 ^ (fE.2 + q.2).toNat)) ≤
      (En : Rat) * ((Dn : Rat) / Tn * ((2 ^ 24 + 1) / 2 ^ 24)) * ((2 ^ 24 + 1) / 2 ^ 24) := by
    refine le_trans hm6 ?_
    have h1 : (En : Rat) * dval q ≤ (En : Rat) * ((Dn : Rat) / Tn * ((2 ^ 24 + 1) / 2 ^ 24)) :=
      mul_le_mul_of_nonneg_left hq5 (by positivity)
    exact mul_le_mul_of_nonneg_right h1 (by positivity)
  have hTpos : (0 : Rat) < (Tn : Rat) := by
    exact_mod_cast Nat.lt_of_lt_of_le Nat.zero_lt_one hTn1
  have hEnq : (En : Rat) ≤ (Tn : Rat) - 1 := by
    have h : (En : Rat) + 1 ≤ (Tn : Rat) := by exact_mod_cast hEnT
    linarith
  have hTnq : (Tn : Rat) ≤ 86400 := by exact_mod_cast hTn86
  have hDnq : (0 : Rat) ≤ (Dn : Rat) := by positivity
  have key : (En : Rat) * ((2 : Rat) ^ 48 + 2 ^ 25 + 1) ≤ (Tn : Rat) * 2 ^ 48 := by
    linarith [hEnq, hTnq]
  have hfinal : (En : Rat) * ((Dn : Rat) / Tn * ((2 ^ 24 + 1) / 2 ^ 24)) *
      ((2 ^ 24 + 1) / 2 ^ 24) ≤ (Dn : Rat) := by
    have hTne : (Tn : Rat) ≠ 0 := ne_of_gt hTpos
    have hrw : (En : Rat) * ((Dn : Rat) / Tn * ((2 ^ 24 + 1) / 2 ^ 24)) *
        ((2 ^ 24 + 1) / 2 ^ 24)
        = (Dn : Rat) * ((En : Rat) * ((2 : Rat) ^ 48 + 2 ^ 25 + 1)) /
          ((Tn : Rat) * 2 ^ 48) := by
      field_simp
      ring
    rw [hrw, div_le_iff₀ (by positivity)]
    exact mul_le_mul_of_nonneg_left key hDnq
  have hle : dval (fl32Round (fE.1 * q.1) (2 ^ (fE.2 + q.2).toNat)) ≤ ((Dn : Int) : Rat) := by
    push_cast
    exact le_trans hstep hfinal
  have htr := trunc32_le_int hle
  omega

/-- The float pipeline is monotone in the elapsed-time operand: integer
conversion, division, multiplication and truncation are all monotone. -/
theorem floatMulDiv_mono {E1 E2 D T : Int} (h10 : 0 ≤ E1) (h12 : E1 ≤ E2) (h2T : E2 < T)
    (hT86 : T ≤ 86400) (hD0 : 0 ≤ D) (hD255 : D ≤ 255) :
    floatMulDiv E1 D T ≤ floatMulDiv E2 D T := by
  have hT0 : 0 < T := by omega
  by_cases hDz : D = 0
  · subst hDz
    rw [floatMulDiv_zero (by simp : E1.natAbs * (0 : Int).natAbs = 0),
        floatMulDiv_zero (by simp : E2.natAbs * (0 : Int).natAbs = 0)]
  by_cases hE1z : E1 = 0
  · rw [hE1z, floatMulDiv_zero (by simp : (0 : Int).natAbs * D.natAbs = 0)]
    exact floatMulDiv_nonneg (by omega) hD0 hT0.le
  rw [floatMulDiv_of_nonneg h10 hD0 hT0.le, floatMulDiv_of_nonneg (by omega) hD0 hT0.le]
  set E1n := E1.natAbs with hE1n
  set E2n := E2.natAbs with hE2n
  set Dn := D.natAbs with hDn
  set Tn := T.natAbs with hTn
  have hE1n1 : 1 ≤ E1n := by omega
  have hE2n1 : 1 ≤ E2n := by omega
  have h12n : E1n ≤ E2n := by omega
  have hE1n24 : E1n < 2 ^ 24 := by omega
  have hE2n24 : E2n < 2 ^ 24 := by omega
  obtain ⟨hq1, hq2, hq3, hq4, -⟩ :=
    div32_facts (by omega : 1 ≤ Dn) (by omega : Dn ≤ 255) (by omega : 1 ≤ Tn)
      (by omega : Tn ≤ 86400)
  set q := div32 (fl32Round Dn 1) (fl32Round Tn 1) with hq
  obtain ⟨hs11, hs12⟩ := fl32Round_int_scale hE1n1 hE1n24
  obtain ⟨hs21, hs22⟩ := fl32Round_int_scale hE2n1 hE2n24
  have hv1 : dval (fl32Round E1n 1) = (E1n : Rat) := fl32Round_int hE1n1 hE1n24
  have hv2 : dval (fl32Round E2n 1) = (E2n : Rat) := fl32Round_int hE2n1 hE2n24
  have hcore1 := @fl32Round_core E1n 1 hE1n1 (by norm_num) (by omega) (by norm_num)
  have hcore2 := @fl32Round_core E2n 1 hE2n1 (by norm_num) (by omega) (by norm_num)
  set f1 := fl32Round E1n 1 with hf1
  set f2 := fl32Round E2n 1 with hf2
  clear_value E1n E2n Dn Tn q f1 f2
  rw [mul32_eq (by omega : (0 : Int) < f1.2 + q.2),
      mul32_eq (by omega : (0 : Int) < f2.2 + q.2)]
  apply trunc32_mono
  have hn11 : 1 ≤ f1.1 * q.1 :=
    Nat.one_le_iff_ne_zero.mpr (Nat.mul_ne_zero (by omega) (by omega))
  have hn21 : 1 ≤ f2.1 * q.1 :=
    Nat.one_le_iff_ne_zero.mpr (Nat.mul_ne_zero (by omega) (by omega))
  have hd11 : 1 ≤ 2 ^ (f1.2 + q.2).toNat := Nat.one_le_pow _ 2 (by norm_num)
  have hd21 : 1 ≤ 2 ^ (f2.2 + q.2).toNat := Nat.one_le_pow _ 2 (by norm_num)
  have hn1b : f1.1 * q.1 < 2 ^ 128 := by
    calc f1.1 * q.1 ≤ 2 ^ 24 * 2 ^ 24 := Nat.mul_le_mul hcore1.2.1 hq2
      _ < 2 ^ 128 := by norm_num
  have hn2b : f2.1 * q.1 < 2 ^ 128 := by
    calc f2.1 * q.1 ≤ 2 ^ 24 * 2 ^ 24 := Nat.mul_le_mul hcore2.2.1 hq2
      _ < 2 ^ 128 := by norm_num
  have hd1b : 2 ^ (f1.2 + q.2).toNat < 2 ^ 128 := by
    have hle : (f1.2 + q.2).toNat ≤ 64 := by omega
    calc (2 : Nat) ^ (f1.2 + q.2).toNat ≤ 2 ^ 64 := Nat.pow_le_pow_right (by norm_num) hle
      _ < 2 ^ 128 := by norm_num
  have hd2b : 2 ^ (f2.2 + q.2).toNat < 2 ^ 128 := by
    have hle : (f2.2 + q.2).toNat ≤ 64 := by omega
    calc (2 : Nat) ^ (f2.2 + q.2).toNat ≤ 2 ^ 64 := Nat.pow_le_pow_right (by norm_num) hle
      _ < 2 ^ 128 := by norm_num
  apply fl32Round_mono hn11 hd11 hn1b hd1b hn21 hd21 hn2b hd2b
  rw [mul32_ratio_val (by omega : (0 : Int) ≤ f1.2 + q.2),
      mul32_ratio_val (by omega : (0 : Int) ≤ f2.2 + q.2), hv1, hv2]
  exact mul_le_mul_of_nonneg_right (by exact_mod_cast h12n) (dval_nonneg q)

/-- The transition-gap intensity of `UpdateLights` (source lines 155-163).
`elapsed` is `seconds - pEnd`, `tDur` is `pNextStart - pEnd`.  The C code
computes `(int)(elapsed * ((float)intensityDiff / tDur))` in the increasing
branch and `preVal - (int)(elapsed * ((float)(0-intensityDiff) / tDur))` in
the decreasing branch, in IEEE binary32 arithmetic: the quotient and the
product are each rounded to nearest (ties to even) single precision and the
`(int)` cast truncates toward zero, exactly as modelled by `floatMulDiv`.
Note the increasing branch does NOT add `preVal`. -/
def gapValue (preVal postVal elapsed tDur : Int) : Int :=
  let intensityDiff := postVal - preVal
  if intensityDiff > 0 then
    floatMulDiv elapsed intensityDiff tDur
  else
    preVal - floatMulDiv elapsed (0 - intensityDiff) tDur

/-- The inner per-channel loop of `UpdateLights` (source lines 147-167),
over the list of rows of one channel.  `some v` means the loop broke with
`lightValue[channel] = v`; `none` means the loop ran past the last row
without breaking, which in C reads `lightMatrix[channel][period+1]` out of
bounds at the last iteration. -/
def scanRows : List Row → Int → Option Int
  | [], _ => none
  | [r], seconds =>
    if rowEnd r ≥ seconds then some r.intensity
    else none
  | r :: r2 :: rest, seconds =>
    if rowEnd r ≥ seconds then some r.intensity
    else
      if rowStart r2 > seconds then
        some (gapValue r.intensity r2.intensity (seconds - rowEnd r) (rowStart r2 - rowEnd r))
      else scanRows (r2 :: rest) seconds

/-- `true` exactly when the scan of `scanRows` reaches the last row with its
end already past, i.e. when the C loop would evaluate
`lightMatrix[channel][period+1]` with `period = MAXPERIODS - 1`,
an out-of-bounds read. -/
def scanOOB : List Row → Int → Bool
  | [], _ => false
  | [r], seconds => decide (rowEnd r < seconds)
  | r :: r2 :: rest, seconds =>
    if rowEnd r ≥ seconds then false
    else
      if rowStart r2 > seconds then false
      else scanOOB (r2 :: rest) seconds

/-- The per-channel loop with the row-major aliasing of the source made
explicit: when the scan is at the LAST row of the channel and must read
`lightMatrix[channel][period+1]`, that access lands on the first row of the
next channel (`next`); for the last channel there is no next row in the
matrix (`next = none`) and the undefined read past the whole array is
modelled as the loop not breaking. -/
def scanRowsNext : List Row → Option Row → Int → Option Int
  | [], _, _ => none
  | [r], next, seconds =>
    if rowEnd r ≥ seconds then some r.intensity
    else
      match next with
      | some r2 =>
        if rowStart r2 > seconds then
          some (gapValue r.intensity r2.intensity (seconds - rowEnd r) (rowStart r2 - rowEnd r))
        else none
      | none => none
  | r :: r2 :: rest, next, seconds =>
    if rowEnd r ≥ seconds then some r.intensity
    else
      if rowStart r2 > seconds then
        some (gapValue r.intensity r2.intensity (seconds - rowEnd r) (rowStart r2 - rowEnd r))
      else scanRowsNext (r2 :: rest) next seconds

/-- `UpdateLights` over all channels (source lines 144-169): each channel's
entry of `lightValue` is overwritten by the scan result when the loop breaks
and keeps its previous value when the loop falls through; each channel's
scan can read one row past its own table, which in the source's row-major
`lightMatrix` is the first row of the NEXT channel. -/
def UpdateLights : List Int → List (List Row) → Int → List Int
  | v :: vs, ch :: chs, seconds =>
    (scanRowsNext ch (chs.head?.bind fun ch2 => ch2.head?) seconds).getD v ::
      UpdateLights vs chs seconds
  | _, _, _ => []

/-- Channel 0 schedule of `lightMatrix` (source lines 123-128). -/
def lightMatrix0 : List Row :=
  [⟨0, 0, 8, 0, 0⟩, ⟨8, 30, 11, 0, 255⟩, ⟨11, 10, 13, 0, 0⟩,
   ⟨13, 10, 20, 0, 255⟩, ⟨20, 30, 24, 0, 0⟩]

/-- Channel 1 schedule of `lightMatrix` (source lines 129-135). -/
def lightMatrix1 : List Row :=
  [⟨0, 0, 7, 45, 0⟩, ⟨8, 0, 11, 0, 255⟩, ⟨11, 10, 13, 0, 0⟩,
   ⟨13, 10, 20, 30, 255⟩, ⟨20, 45, 24, 0, 0⟩]

/-- The source's `lightMatrix` (lines 121-137). -/
def lightMatrix : List (List Row) :=
  [lightMatrix0, lightMatrix1]

/-- The source's initial `lightValue` table (line 141). -/
def lightValue : List Int :=
  [0, 0]

/-- The chain of validity invariants of spec section 3 / section 7 on the
meaningful rows of a channel, starting from a lower bound `lo` on the next
admissible start time: each row starts no earlier than `lo`, starts no later
than it ends, has intensity in [0,255], and either is the terminal row
(`end == 86400`) or ends strictly before 86400 and is followed by a chain
whose next row starts strictly after this row's end (positive gap duration,
spec section 7).  Rows after the terminal row are unconstrained placeholders. -/
def chainOk : Int → List Row → Prop
  | _, [] => False
  | lo, r :: rest =>
    lo ≤ rowStart r ∧ rowStart r ≤ rowEnd r ∧ 0 ≤ r.intensity ∧ r.intensity ≤ 255 ∧
      (rowEnd r = 86400 ∨ (rowEnd r < 86400 ∧ chainOk (rowEnd r + 1) rest))

instance chainOkDec : (lo : Int) → (rows : List Row) → Decidable (chainOk lo rows)
  | _, [] => isFalse (by simp [chainOk])
  | lo, r :: rest =>
    letI : Decidable (chainOk (rowEnd r + 1) rest) := chainOkDec _ _
    decidable_of_iff
      (lo ≤ rowStart r ∧ rowStart r ≤ rowEnd r ∧ 0 ≤ r.intensity ∧ r.intensity ≤ 255 ∧
        (rowEnd r = 86400 ∨ (rowEnd r < 86400 ∧ chainOk (rowEnd r + 1) rest)))
      (by rw [chainOk])

/-- A valid channel schedule (spec section 3): the first row starts at
midnight and the rows form a `chainOk` chain reaching a terminal row. -/
def Valid (rows : List Row) : Prop :=
  Option.map rowStart rows.head? = some 0 ∧ chainOk 0 rows

instance (rows : List Row) : Decidable (Valid rows) :=
  inferInstanceAs (Decidable (_ ∧ _))

/-- The meaningful rows of a schedule: everything up to and including the
first terminal row (`end == 86400`); later rows are placeholders. -/
def meaningful : List Row → List Row
  | [] => []
  | r :: rest => if rowEnd r = 86400 then [r] else r :: meaningful rest

/-- `consecMeaningful rows r r2` holds when `r` and `r2` are adjacent rows of
the schedule with `r` before the terminal row: the transition gap between
them is the one the scan can interpolate over. -/
def consecMeaningful : List Row → Row → Row → Prop
  | [], _, _ => False
  | [_], _, _ => False
  | a :: b :: rest, r, r2 =>
    (a = r ∧ b = r2 ∧ rowEnd a ≠ 86400) ∨ (rowEnd a ≠ 86400 ∧ consecMeaningful (b :: rest) r r2)

instance consecMeaningfulDec :
    (rows : List Row) → (r r2 : Row) → Decidable (consecMeaningful rows r r2)
  | [], _, _ => isFalse (by simp [consecMeaningful])
  | [a], r, r2 => isFalse (by simp [consecMeaningful])
  | a :: b :: rest, r, r2 =>
    letI : Decidable (consecMeaningful (b :: rest) r r2) := consecMeaningfulDec _ _ _
    decidable_of_iff
      ((a = r ∧ b = r2 ∧ rowEnd a ≠ 86400) ∨
        (rowEnd a ≠ 86400 ∧ consecMeaningful (b :: rest) r r2))
      (by rw [consecMeaningful])

/-- Intensity of the first terminal row (`end == 86400`) of a schedule. -/
def terminalIntensity : List Row → Option Int
  | [] => none
  | r :: rest => if rowEnd r = 86400 then some r.intensity else terminalIntensity rest

/-- The specification's single interpolation formula (spec section 4.1):
`output = periods[i].intensity + round_toward_zero(elapsed * delta / gapDuration)`.
Written from the spec's words, to be compared with the source's `gapValue`. -/
def specGapValue (preVal postVal elapsed tDur : Int) : Int :=
  preVal + Int.tdiv (elapsed * (postVal - preVal)) tDur

/-- Inside a gap (`0 < elapsed < tDur ≤ 86400`) and with both adjacent
intensities in [0,255], the interpolated value of the source stays in
[0,255]. -/
theorem gapValue_range {preVal postVal elapsed tDur : Int}
    (hp0 : 0 ≤ preVal) (hp1 : preVal ≤ 255) (hq0 : 0 ≤ postVal) (hq1 : postVal ≤ 255)
    (he : 0 < elapsed) (heg : elapsed < tDur) (htd : tDur ≤ 86400) :
    0 ≤ gapValue preVal postVal elapsed tDur ∧ gapValue preVal postVal elapsed tDur ≤ 255 := by
  have hg : 0 < tDur := lt_trans he heg
  unfold gapValue
  by_cases hd : 0 < postVal - preVal
  · rw [if_pos hd]
    refine ⟨floatMulDiv_nonneg he.le (by omega) hg.le, ?_⟩
    have h2 := floatMulDiv_le he.le heg htd (by omega : (0 : Int) ≤ postVal - preVal)
      (by omega : postVal - preVal ≤ 255)
    omega
  · rw [if_neg hd]
    have h0 : 0 ≤ floatMulDiv elapsed (0 - (postVal - preVal)) tDur :=
      floatMulDiv_nonneg he.le (by omega) hg.le
    have h2 := floatMulDiv_le he.le heg htd (by omega : (0 : Int) ≤ 0 - (postVal - preVal))
      (by omega : 0 - (postVal - preVal) ≤ 255)
    omega

/-- The interpolated value of the source is monotone in the elapsed time:
non-decreasing when the intensity difference is positive, non-increasing
when it is negative. -/
theorem gapValue_mono {preVal postVal e1 e2 tDur : Int}
    (hp0 : 0 ≤ preVal) (hp1 : preVal ≤ 255) (hq0 : 0 ≤ postVal) (hq1 : postVal ≤ 255)
    (h0 : 0 ≤ e1) (h12 : e1 ≤ e2) (h2 : e2 < tDur) (htd : tDur ≤ 86400) :
    (0 < postVal - preVal →
      gapValue preVal postVal e1 tDur ≤ gapValue preVal postVal e2 tDur) ∧
    (postVal - preVal < 0 →
      gapValue preVal postVal e2 tDur ≤ gapValue preVal postVal e1 tDur) := by
  unfold gapValue
  constructor
  · intro hd
    rw [if_pos hd, if_pos hd]
    exact floatMulDiv_mono h0 h12 h2 htd (by omega) (by omega)
  · intro hd
    rw [if_neg (by omega : ¬ 0 < postVal - preVal), if_neg (by omega : ¬ 0 < postVal - preVal)]
    have hm := floatMulDiv_mono h0 h12 h2 htd (by omega : (0 : Int) ≤ 0 - (postVal - preVal))
      (by omega : 0 - (postVal - preVal) ≤ 255)
    omega

/-! ### Behaviour of the scan on schedules satisfying the invariants -/

/-- On a `chainOk` schedule, for any time at most 86400, the scan always
breaks (finds a period or a gap) and never reaches the out-of-bounds read. -/
theorem scan_complete : ∀ (rows : List Row) (lo t : Int),
    chainOk lo rows → t ≤ 86400 →
    (scanRows rows t).isSome = true ∧ scanOOB rows t = false
  | [], _, _, h, _ => absurd h (by simp [chainOk])
  | [r], lo, t, h, ht => by
    rw [chainOk] at h
    obtain ⟨-, -, -, -, hterm⟩ := h
    rcases hterm with hterm | ⟨-, hrest⟩
    · have hge : rowEnd r ≥ t := by omega
      simp [scanRows, scanOOB, hge]
    · exact absurd hrest (by simp [chainOk])
  | r :: r2 :: rest, lo, t, h, ht => by
    rw [chainOk] at h
    obtain ⟨-, -, -, -, hterm⟩ := h
    by_cases hge : rowEnd r ≥ t
    · simp [scanRows, scanOOB, hge]
    · rcases hterm with hterm | ⟨hlt, hrest⟩
      · omega
      · by_cases hs : rowStart r2 > t
        · simp [scanRows, scanOOB, hge, hs]
        · have ih := scan_complete (r2 :: rest) (rowEnd r + 1) t hrest ht
          simp [scanRows, scanOOB, hge, hs, ih.1, ih.2]

/-- On a schedule satisfying the chain invariants and any time at most
86400, the scan never consults the aliased next-channel row: the terminal
row stops it first, so the aliasing-aware scan agrees with the per-channel
scan whatever the neighbouring channel holds. -/
theorem scanRowsNext_eq : ∀ (rows : List Row) (next : Option Row) (lo t : Int),
    chainOk lo rows → t ≤ 86400 → scanRowsNext rows next t = scanRows rows t
  | [], _, _, _, h, _ => absurd h (by simp [chainOk])
  | [r], next, lo, t, h, ht => by
    rw [chainOk] at h
    obtain ⟨-, -, -, -, hterm⟩ := h
    rcases hterm with hterm | ⟨-, hrest⟩
    · have hge : rowEnd r ≥ t := by omega
      simp [scanRowsNext, scanRows, hge]
    · exact absurd hrest (by simp [chainOk])
  | r :: r2 :: rest, next, lo, t, h, ht => by
    rw [chainOk] at h
    obtain ⟨-, -, -, -, hterm⟩ := h
    by_cases hge : rowEnd r ≥ t
    · simp [scanRowsNext, scanRows, hge]
    · rcases hterm with hterm | ⟨hlt, hrest⟩
      · omega
      · by_cases hs : rowStart r2 > t
        · simp [scanRowsNext, scanRows, hge, hs]
        · have ih := scanRowsNext_eq (r2 :: rest) next (rowEnd r + 1) t hrest ht
          simp only [scanRowsNext, scanRows]
          rw [if_neg hge, if_neg hs, if_neg hge, if_neg hs]
          exact ih

/-- On a `chainOk` schedule with a non-negative lower bound, for any time at
most 86400, every value the scan produces lies in [0, 255]. -/
theorem scan_range : ∀ (rows : List Row) (lo t v : Int),
    0 ≤ lo → chainOk lo rows → t ≤ 86400 → scanRows rows t = some v → 0 ≤ v ∧ v ≤ 255
  | [], _, _, _, _, h, _, _ => absurd h (by simp [chainOk])
  | [r], lo, t, v, hlo, h, ht, hscan => by
    rw [chainOk] at h
    obtain ⟨-, -, h3, h4, -⟩ := h
    by_cases hge : rowEnd r ≥ t
    · simp [scanRows, hge] at hscan
      omega
    · simp [scanRows, hge] at hscan
  | r :: r2 :: rest, lo, t, v, hlo, h, ht, hscan => by
    rw [chainOk] at h
    obtain ⟨h1, h2, h3, h4, hterm⟩ := h
    by_cases hge : rowEnd r ≥ t
    · simp [scanRows, hge] at hscan
      omega
    · rcases hterm with hterm | ⟨hlt, hrest⟩
      · omega
      · by_cases hs : rowStart r2 > t
        · simp [scanRows, hge, hs] at hscan
          have hr2 := hrest
          rw [chainOk] at hr2
          obtain ⟨hb1, hb2, hb3, hb4, hbterm⟩ := hr2
          have hs86 : rowStart r2 ≤ 86400 := by
            rcases hbterm with hbt | ⟨hbt, -⟩ <;> omega
          have hb := gapValue_range h3 h4 hb3 hb4
            (by omega : 0 < t - rowEnd r) (by omega : t - rowEnd r < rowStart r2 - rowEnd r)
            (by omega : rowStart r2 - rowEnd r ≤ 86400)
          omega
        · exact scan_range (r2 :: rest) (rowEnd r + 1) t v (by omega) hrest ht
            (by simpa [scanRows, hge, hs] using hscan)

/-- Every row of the meaningful chain starts no earlier than the chain's
lower bound, starts no later than it ends, and ends by 86400. -/
theorem meaningful_mem_bounds : ∀ (rows : List Row) (lo : Int) (r : Row),
    chainOk lo rows → r ∈ meaningful rows →
    lo ≤ rowStart r ∧ rowStart r ≤ rowEnd r ∧ rowEnd r ≤ 86400
  | [], _, _, h, _ => absurd h (by simp [chainOk])
  | a :: rest, lo, r, h, hmem => by
    rw [chainOk] at h
    obtain ⟨h1, h2, -, -, hterm⟩ := h
    rw [meaningful] at hmem
    by_cases hta : rowEnd a = 86400
    · rw [if_pos hta] at hmem
      simp at hmem
      subst hmem
      exact ⟨h1, h2, by omega⟩
    · rw [if_neg hta] at hmem
      rcases List.mem_cons.mp hmem with rfl | hmem2
      · rcases hterm with hterm | ⟨hlt, -⟩
        · exact absurd hterm hta
        · exact ⟨h1, h2, by omega⟩
      · rcases hterm with hterm | ⟨hlt, hrest⟩
        · exact absurd hterm hta
        · have ih := meaningful_mem_bounds rest (rowEnd a + 1) r hrest hmem2
          exact ⟨by omega, ih.2.1, ih.2.2⟩

/-- Resolving exactly at the end time of any meaningful row yields that
row's intensity: the scan breaks there (or at no earlier row). -/
theorem scan_at_end : ∀ (rows : List Row) (lo : Int) (r : Row),
    chainOk lo rows → r ∈ meaningful rows →
    scanRows rows (rowEnd r) = some r.intensity
  | [], _, _, h, _ => absurd h (by simp [chainOk])
  | [a], lo, r, h, hmem => by
    rw [chainOk] at h
    obtain ⟨-, -, -, -, hterm⟩ := h
    rw [meaningful] at hmem
    rcases hterm with hta | ⟨-, hrest⟩
    · rw [if_pos hta] at hmem
      simp at hmem
      subst hmem
      simp [scanRows]
    · exact absurd hrest (by simp [chainOk])
  | a :: b :: rest, lo, r, h, hmem => by
    rw [chainOk] at h
    obtain ⟨h1, h2, -, -, hterm⟩ := h
    rw [meaningful] at hmem
    by_cases hta : rowEnd a = 86400
    · rw [if_pos hta] at hmem
      simp at hmem
      subst hmem
      simp [scanRows]
    · rw [if_neg hta] at hmem
      rcases List.mem_cons.mp hmem with rfl | hmem2
      · simp [scanRows]
      · rcases hterm with hterm | ⟨hlt, hrest⟩
        · exact absurd hterm hta
        · have hbnd := meaningful_mem_bounds (b :: rest) (rowEnd a + 1) r hrest hmem2
          have hb := hrest
          rw [chainOk] at hb
          obtain ⟨hb1, hb2, -, -, hbterm⟩ := hb
          have hna : ¬ rowEnd a ≥ rowEnd r := by omega
          have hnb : ¬ rowStart b > rowEnd r := by
            rw [meaningful] at hmem2
            by_cases htb : rowEnd b = 86400
            · rw [if_pos htb] at hmem2
              simp at hmem2
              subst hmem2
              omega
            · rw [if_neg htb] at hmem2
              rcases List.mem_cons.mp hmem2 with rfl | hmem3
              · omega
              · rcases hbterm with hbterm | ⟨hblt, hbrest⟩
                · exact absurd hbterm htb
                · have hbnd2 := meaningful_mem_bounds rest (rowEnd b + 1) r hbrest hmem3
                  omega
          simp only [scanRows]
          rw [if_neg hna, if_neg hnb]
          exact scan_at_end (b :: rest) (rowEnd a + 1) r hrest hmem2

/-- Resolving at midnight (t = 0) on a valid schedule yields the first
period's intensity. -/
theorem scan_at_zero (a : Row) (rest : List Row) (h : Valid (a :: rest)) :
    scanRows (a :: rest) 0 = some a.intensity := by
  obtain ⟨hhead, hchain⟩ := h
  rw [chainOk] at hchain
  obtain ⟨-, h2, -, -, -⟩ := hchain
  simp [List.head?] at hhead
  have hge : rowEnd a ≥ 0 := by omega
  cases rest with
  | nil => simp [scanRows, hge]
  | cons b rest2 => simp [scanRows, hge]

/-- Bounds extracted from the chain for an adjacent meaningful pair:
ordering of the four times, positivity of the gap, and intensity ranges. -/
theorem consec_bounds : ∀ (rows : List Row) (lo : Int) (r r2 : Row),
    chainOk lo rows → consecMeaningful rows r r2 →
    lo ≤ rowStart r ∧ rowStart r ≤ rowEnd r ∧ rowEnd r + 1 ≤ rowStart r2 ∧
      rowStart r2 ≤ rowEnd r2 ∧ 0 ≤ r.intensity ∧ r.intensity ≤ 255 ∧
      0 ≤ r2.intensity ∧ r2.intensity ≤ 255 ∧ rowEnd r ≠ 86400 ∧ rowEnd r2 ≤ 86400
  | [], _, _, _, h, _ => absurd h (by simp [chainOk])
  | [a], _, _, _, _, hc => absurd hc (by simp [consecMeaningful])
  | a :: b :: rest, lo, r, r2, h, hc => by
    rw [chainOk] at h
    obtain ⟨h1, h2, h3, h4, hterm⟩ := h
    rw [consecMeaningful] at hc
    rcases hc with ⟨rfl, rfl, hne⟩ | ⟨hne, hc2⟩
    · rcases hterm with hterm | ⟨hlt, hrest⟩
      · exact absurd hterm hne
      · rw [chainOk] at hrest
        obtain ⟨hb1, hb2, hb3, hb4, hbterm⟩ := hrest
        have hb86 : rowEnd b ≤ 86400 := by
          rcases hbterm with hbt | ⟨hbt, -⟩ <;> omega
        exact ⟨h1, h2, by omega, hb2, h3, h4, hb3, hb4, hne, hb86⟩
    · rcases hterm with hterm | ⟨hlt, hrest⟩
      · exact absurd hterm hne
      · have ih := consec_bounds (b :: rest) (rowEnd a + 1) r r2 hrest hc2
        have i1 := ih.1
        exact ⟨by omega, ih.2⟩

/-- At a time strictly inside the transition gap between an adjacent
meaningful pair, the scan breaks in the gap branch with the source's
interpolated value. -/
theorem scan_in_gap : ∀ (rows : List Row) (lo : Int) (r r2 : Row) (t : Int),
    chainOk lo rows → consecMeaningful rows r r2 → rowEnd r < t → t < rowStart r2 →
    scanRows rows t =
      some (gapValue r.intensity r2.intensity (t - rowEnd r) (rowStart r2 - rowEnd r))
  | [], _, _, _, _, h, _, _, _ => absurd h (by simp [chainOk])
  | [a], _, _, _, _, _, hc, _, _ => absurd hc (by simp [consecMeaningful])
  | a :: b :: rest, lo, r, r2, t, h, hc, ht1, ht2 => by
    rw [chainOk] at h
    obtain ⟨h1, h2, h3, h4, hterm⟩ := h
    rw [consecMeaningful] at hc
    rcases hc with ⟨rfl, rfl, hne⟩ | ⟨hne, hc2⟩
    · have hna : ¬ rowEnd a ≥ t := by omega
      simp only [scanRows]
      rw [if_neg hna, if_pos ht2]
    · rcases hterm with hterm | ⟨hlt, hrest⟩
      · exact absurd hterm hne
      · have hcb := consec_bounds (b :: rest) (rowEnd a + 1) r r2 hrest hc2
        have i1 := hcb.1
        have i2 := hcb.2.1
        have hna : ¬ rowEnd a ≥ t := by omega
        have hnb : ¬ rowStart b > t := by
          have hb := hrest
          rw [chainOk] at hb
          obtain ⟨hb1, hb2, -, -, hbterm⟩ := hb
          cases rest with
          | nil => exact absurd hc2 (by simp [consecMeaningful])
          | cons c rest2 =>
            rw [consecMeaningful] at hc2
            rcases hc2 with ⟨rfl, rfl, hbe⟩ | ⟨hbe, hc3⟩
            · omega
            · rcases hbterm with hbterm | ⟨hblt, hbrest⟩
              · exact absurd hbterm hbe
              · have hcb2 := consec_bounds (c :: rest2) (rowEnd b + 1) r r2 hbrest hc3
                have j1 := hcb2.1
                have j2 := hcb2.2.1
                omega
        simp only [scanRows]
        rw [if_neg hna, if_neg hnb]
        exact scan_in_gap (b :: rest) (rowEnd a + 1) r r2 t hrest hc2 ht1 ht2

/-- At t = 86400 exactly, the scan on a `chainOk` schedule stops at the
terminal row, yields its intensity, and performs no out-of-bounds read. -/
theorem scan_terminal : ∀ (rows : List Row) (lo : Int),
    chainOk lo rows →
    scanRows rows 86400 = terminalIntensity rows ∧ scanOOB rows 86400 = false
  | [], _, h => absurd h (by simp [chainOk])
  | [a], lo, h => by
    rw [chainOk] at h
    obtain ⟨-, -, -, -, hterm⟩ := h
    rcases hterm with hterm | ⟨-, hrest⟩
    · have hge : rowEnd a ≥ 86400 := by omega
      simp [scanRows, scanOOB, terminalIntensity, hge, hterm]
    · exact absurd hrest (by simp [chainOk])
  | a :: b :: rest, lo, h => by
    rw [chainOk] at h
    obtain ⟨-, -, -, -, hterm⟩ := h
    rcases hterm with hterm | ⟨hlt, hrest⟩
    · have hge : rowEnd a ≥ 86400 := by omega
      simp [scanRows, scanOOB, terminalIntensity, hge, hterm]
    · have hb := hrest
      rw [chainOk] at hb
      obtain ⟨hb1, hb2, -, -, hbterm⟩ := hb
      have hna : ¬ rowEnd a ≥ 86400 := by omega
      have hnb : ¬ rowStart b > 86400 := by
        rcases hbterm with h86 | ⟨hl, -⟩ <;> omega
      have ih := scan_terminal (b :: rest) (rowEnd a + 1) hrest
      constructor
      · simp only [scanRows, terminalIntensity]
        rw [if_neg hna, if_neg hnb, if_neg (by omega : ¬ rowEnd a = 86400)]
        exact ih.1
      · simp only [scanOOB]
        rw [if_neg hna, if_neg hnb]
        exact ih.2

/-- Every `chainOk` schedule has a terminal row, so `terminalIntensity`
is defined. -/
theorem terminal_isSome : ∀ (rows : List Row) (lo : Int),
    chainOk lo rows → (terminalIntensity rows).isSome = true
  | [], _, h => absurd h (by simp [chainOk])
  | a :: rest, lo, h => by
    rw [chainOk] at h
    obtain ⟨-, -, -, -, hterm⟩ := h
    rcases hterm with hterm | ⟨hlt, hrest⟩
    · simp [terminalIntensity, hterm]
    · rw [terminalIntensity, if_neg (by omega : ¬ rowEnd a = 86400)]
      exact terminal_isSome rest (rowEnd a + 1) hrest

/-- Entry `c` of `UpdateLights` is computed from entry `c` of the previous
`lightValue` table, entry `c` of the matrix, and — through the aliased
one-past-the-end read — the FIRST ROW of entry `c+1` of the matrix. -/
theorem UpdateLights_get : ∀ (prev : List Int) (mat : List (List Row)) (t : Int) (c : Nat),
    (UpdateLights prev mat t).get? c =
      (prev.get? c).bind fun v => (mat.get? c).map fun ch =>
        (scanRowsNext ch ((mat.get? (c + 1)).bind fun ch2 => ch2.head?) t).getD v
  | [], mat, t, c => by simp [UpdateLights]
  | v :: vs, [], t, c => by simp [UpdateLights]
  | v :: vs, ch :: chs, t, 0 => by cases chs <;> simp [UpdateLights]
  | v :: vs, ch :: chs, t, c + 1 => by
    simp only [UpdateLights, List.get?]
    exact UpdateLights_get vs chs t c

/-! ### Claim theorems -/

/-- Row 0 of the schedule refuting the unified interpolation formula. -/
def exRow0 : Row := ⟨0, 0, 10, 0, 100⟩

/-- Row 1 of the schedule refuting the unified interpolation formula. -/
def exRow1 : Row := ⟨12, 0, 24, 0, 255⟩

/-- A valid channel schedule whose increasing transition starts from
intensity 100 rather than 0. -/
def exRows : List Row :=
  [exRow0, exRow1, ⟨0, 0, 0, 0, 0⟩, ⟨0, 0, 0, 0, 0⟩, ⟨0, 0, 0, 0, 0⟩]

/-- First row of the schedule exposing the binary32 rounding deviation. -/
def exRowA : Row := ⟨0, 0, 0, 0, 0⟩

/-- Second row of the schedule exposing the binary32 rounding deviation. -/
def exRowB : Row := ⟨0, 1, 24, 0, 70⟩

/-- A valid schedule with a 60-second transition gap from intensity 0 to
70: at 54 s the binary32 computation gives 62 where exact truncating
integer division gives 63. -/
def exRowsF : List Row :=
  [exRowA, exRowB, ⟨0, 0, 0, 0, 0⟩, ⟨0, 0, 0, 0, 0⟩, ⟨0, 0, 0, 0, 0⟩]

/-- C1, counterexample: the claimed formula fails on two counts.  On the
valid schedule `exRows`, at t = 39600 inside the 36000-43200 gap the code
resolves to 77 while `periods[i].intensity + trunc(elapsed*delta/gapDuration)`
gives 100 + 77 = 177: the increasing branch omits the preceding intensity.
And on `exRowsF`, at t = 54 inside the 0-60 gap (delta 70), the code's
binary32 arithmetic yields trunc(54 * fl32(70/60)) = 62 while the exact
truncating integer division the spec demands gives trunc(3780/60) = 63:
the code does not implement byte-exact truncating division. -/
theorem C1_unified_formula_cex :
    (Valid exRows ∧ consecMeaningful exRows exRow0 exRow1 ∧
      rowEnd exRow0 < 39600 ∧ (39600 : Int) < rowStart exRow1 ∧
      scanRows exRows 39600 = some 77 ∧
      specGapValue exRow0.intensity exRow1.intensity (39600 - rowEnd exRow0)
        (rowStart exRow1 - rowEnd exRow0) = 177 ∧ (77 : Int) ≠ 177) ∧
    (Valid exRowsF ∧ consecMeaningful exRowsF exRowA exRowB ∧
      rowEnd exRowA < 54 ∧ (54 : Int) < rowStart exRowB ∧
      scanRows exRowsF 54 = some 62 ∧
      specGapValue exRowA.intensity exRowB.intensity (54 - rowEnd exRowA)
        (rowStart exRowB - rowEnd exRowA) = 63 ∧ (62 : Int) ≠ 63) := by
  decide

/-- C1 (amended): for every valid schedule and every time strictly inside a
transition gap, the resolved intensity is the binary32 computation
`(int)(elapsed * ((float)delta / gapDuration))` when delta > 0 — the code
omits the `periods[i].intensity` term in the increasing branch — and
`periods[i].intensity + (int)(elapsed * ((float)delta / gapDuration))`
when delta ≤ 0: the fraction is formed by one binary32 division and one
binary32 multiplication, each rounded to nearest-even, and then truncated
toward zero — not by the spec's exact truncating integer division. -/
theorem C1_gap_formula (rows : List Row) (r r2 : Row) (t : Int)
    (hv : Valid rows) (hc : consecMeaningful rows r r2)
    (h1 : rowEnd r < t) (h2 : t < rowStart r2) :
    scanRows rows t = some
      (if 0 < r2.intensity - r.intensity
       then floatMulDiv (t - rowEnd r) (r2.intensity - r.intensity) (rowStart r2 - rowEnd r)
       else r.intensity +
         floatMulDiv (t - rowEnd r) (r2.intensity - r.intensity) (rowStart r2 - rowEnd r)) := by
  have hb := consec_bounds rows 0 r r2 hv.2 hc
  rw [scan_in_gap rows 0 r r2 t hv.2 hc h1 h2]
  congr 1
  unfold gapValue
  by_cases hd : 0 < r2.intensity - r.intensity
  · rw [if_pos hd, if_pos hd]
  · rw [if_neg hd, if_neg hd]
    have hneg := floatMulDiv_neg_of_nonpos (by omega : (0 : Int) ≤ t - rowEnd r)
      (by omega : (0 : Int) < rowStart r2 - rowEnd r)
      (by omega : r2.intensity - r.intensity ≤ 0)
    omega

/-- C1, witness for the amended theorem at a concrete schedule and time. -/
theorem C1_gap_formula_w :
    Valid exRowsF ∧ consecMeaningful exRowsF exRowA exRowB ∧
      rowEnd exRowA < 54 ∧ (54 : Int) < rowStart exRowB ∧
      scanRows exRowsF 54 = some 62 :=
  ⟨by decide, by decide, by decide, by decide, by
    rw [C1_gap_formula exRowsF exRowA exRowB 54 (by decide) (by decide) (by decide)
      (by decide)]
    decide⟩

/-- C2: on a `ChannelSet` whose every channel is a valid schedule and any
time t in [0, 86400), `UpdateLights` (a total structurally recursive
function, hence terminating) yields an intensity in [0, 255] for every
channel. -/
theorem C2_resolve_range (prev : List Int) (mat : List (List Row)) (t : Int)
    (hv : ∀ rows ∈ mat, Valid rows) (h0 : 0 ≤ t) (h1 : t < 86400) :
    ∀ v ∈ UpdateLights prev mat t, 0 ≤ v ∧ v ≤ 255 := by
  induction mat generalizing prev with
  | nil => cases prev <;> simp [UpdateLights]
  | cons ch chs ih =>
    cases prev with
    | nil => simp [UpdateLights]
    | cons p ps =>
      intro v hvmem
      rw [UpdateLights] at hvmem
      rcases List.mem_cons.mp hvmem with rfl | hmem2
      · have hvch := hv ch (by simp)
        have heqn := scanRowsNext_eq ch (chs.head?.bind fun ch2 => ch2.head?) 0 t
          hvch.2 (by omega)
        rw [heqn]
        have hc := scan_complete ch 0 t hvch.2 (by omega)
        obtain ⟨w, hw⟩ := Option.isSome_iff_exists.mp hc.1
        rw [hw]
        simp only [Option.getD_some]
        exact scan_range ch 0 t w (by omega) hvch.2 (by omega) hw
      · exact ih ps (fun rows hr => hv rows (List.mem_cons_of_mem ch hr)) v hmem2

/-- C2, witness at the source's own tables and noon. -/
theorem C2_resolve_range_w :
    (∀ rows ∈ lightMatrix, Valid rows) ∧ (0 : Int) ≤ 43200 ∧ (43200 : Int) < 86400 ∧
      ∀ v ∈ UpdateLights lightValue lightMatrix 43200, 0 ≤ v ∧ v ≤ 255 :=
  ⟨by decide, by decide, by decide,
    C2_resolve_range lightValue lightMatrix 43200 (by decide) (by decide) (by decide)⟩

/-- C3: on a valid schedule and any t in [0, 86400), the scan never reaches
the out-of-bounds read of row `period+1` past the last row — the terminal
row satisfies `pEnd >= t` and stops it first — and always breaks within the
table. -/
theorem C3_scan_bounded (rows : List Row) (t : Int)
    (hv : Valid rows) (h0 : 0 ≤ t) (h1 : t < 86400) :
    scanOOB rows t = false ∧ (scanRows rows t).isSome = true := by
  have h := scan_complete rows 0 t hv.2 (by omega)
  exact ⟨h.2, h.1⟩

/-- C3, witness on the source's channel-0 table. -/
theorem C3_scan_bounded_w :
    Valid lightMatrix0 ∧ (0 : Int) ≤ 50000 ∧ (50000 : Int) < 86400 ∧
      scanOOB lightMatrix0 50000 = false ∧ (scanRows lightMatrix0 50000).isSome = true :=
  ⟨by decide, by decide, by decide,
    C3_scan_bounded lightMatrix0 50000 (by decide) (by decide) (by decide)⟩

/-- C4: concrete scenario 1 on the source's channel-0 schedule: intensity 0
at 07:59:59; 127 at 08:15:00 (gap interpolation, delta +255, gap 1800 s,
elapsed 900 s); 255 at 08:30:00; 255 at 11:00:00 (end boundary inclusive);
0 at 23:59:59. -/
theorem C4_scenario1 :
    scanRows lightMatrix0 (GetSeconds 7 59 59) = some 0 ∧
      scanRows lightMatrix0 (GetSeconds 8 15 0) = some 127 ∧
      scanRows lightMatrix0 (GetSeconds 8 30 0) = some 255 ∧
      scanRows lightMatrix0 (GetSeconds 11 0 0) = some 255 ∧
      scanRows lightMatrix0 (GetSeconds 23 59 59) = some 0 := by
  decide

/-- C5, counterexample: the resolver does not fail fast on out-of-range
times: at t = -1 (outside [0, 86400)) it silently resolves channel 0 to
intensity 0 and produces a full snapshot, instead of rejecting the input. -/
theorem C5_fail_fast_cex :
    (-1 : Int) < 0 ∧ scanRows lightMatrix0 (-1) = some 0 ∧
      UpdateLights lightValue lightMatrix (-1) = [0, 0] := by
  decide

/-- C5 (amended): the code has no range check at all: for every schedule
whose first row ends at a non-negative time and every negative t, the scan
silently returns the first period's intensity; and for t = 86401 above the
range, the shipped channel-0 schedule scans off the end of the table (the
out-of-bounds read), which is not a signalled rejection either. -/
theorem C5_no_range_check :
    (∀ (r : Row) (rest : List Row) (t : Int), t < 0 → 0 ≤ rowEnd r →
      scanRows (r :: rest) t = some r.intensity) ∧
    scanOOB lightMatrix0 86401 = true := by
  constructor
  · intro r rest t ht hr
    have hge : rowEnd r ≥ t := by omega
    cases rest with
    | nil => simp [scanRows, hge]
    | cons b rest2 => simp [scanRows, hge]
  · decide

/-- C5, witness for the amended theorem at t = -1 on channel 0's first row. -/
theorem C5_no_range_check_w :
    (-1 : Int) < 0 ∧ 0 ≤ rowEnd ⟨0, 0, 8, 0, 0⟩ ∧
      scanRows ((⟨0, 0, 8, 0, 0⟩ : Row) :: [⟨8, 30, 11, 0, 255⟩, ⟨11, 10, 13, 0, 0⟩,
        ⟨13, 10, 20, 0, 255⟩, ⟨20, 30, 24, 0, 0⟩]) (-1) = some (⟨0, 0, 8, 0, 0⟩ : Row).intensity :=
  ⟨by decide, by decide,
    C5_no_range_check.1 ⟨0, 0, 8, 0, 0⟩ [⟨8, 30, 11, 0, 255⟩, ⟨11, 10, 13, 0, 0⟩,
      ⟨13, 10, 20, 0, 255⟩, ⟨20, 30, 24, 0, 0⟩] (-1) (by decide) (by decide)⟩

/-- C6: on a valid schedule, resolving exactly at a meaningful period's end
time (end < 86400) yields that period's intensity — the end boundary belongs
to the ending period, not the following gap — and resolving at t = 0 yields
the first period's intensity. -/
theorem C6_boundary_inclusive (a : Row) (rest : List Row) (r : Row)
    (hv : Valid (a :: rest)) :
    (r ∈ meaningful (a :: rest) → rowEnd r < 86400 →
      scanRows (a :: rest) (rowEnd r) = some r.intensity) ∧
    scanRows (a :: rest) 0 = some a.intensity :=
  ⟨fun hmem _ => scan_at_end (a :: rest) 0 r hv.2 hmem, scan_at_zero a rest hv⟩

/-- C6, witness at the 11:00:00 end of channel 0's second period and at
midnight. -/
theorem C6_boundary_inclusive_w :
    Valid lightMatrix0 ∧ (⟨8, 30, 11, 0, 255⟩ : Row) ∈ meaningful lightMatrix0 ∧
      rowEnd ⟨8, 30, 11, 0, 255⟩ < 86400 ∧
      scanRows lightMatrix0 (rowEnd ⟨8, 30, 11, 0, 255⟩) = some 255 ∧
      scanRows lightMatrix0 0 = some 0 := by
  have h := C6_boundary_inclusive ⟨0, 0, 8, 0, 0⟩
    [⟨8, 30, 11, 0, 255⟩, ⟨11, 10, 13, 0, 0⟩, ⟨13, 10, 20, 0, 255⟩, ⟨20, 30, 24, 0, 0⟩]
    ⟨8, 30, 11, 0, 255⟩ (by decide)
  exact ⟨by decide, by decide, by decide, h.1 (by decide) (by decide), h.2⟩

/-- C7: inside a transition gap between an adjacent meaningful pair, the
resolved intensity is non-decreasing in t when the intensity difference is
positive and non-increasing when it is negative. -/
theorem C7_gap_monotone (rows : List Row) (r r2 : Row) (t1 t2 v1 v2 : Int)
    (hv : Valid rows) (hc : consecMeaningful rows r r2)
    (h1 : rowEnd r < t1) (h12 : t1 ≤ t2) (h2 : t2 < rowStart r2)
    (hs1 : scanRows rows t1 = some v1) (hs2 : scanRows rows t2 = some v2) :
    (0 < r2.intensity - r.intensity → v1 ≤ v2) ∧
    (r2.intensity - r.intensity < 0 → v2 ≤ v1) := by
  have hb := consec_bounds rows 0 r r2 hv.2 hc
  rw [scan_in_gap rows 0 r r2 t1 hv.2 hc h1 (by omega)] at hs1
  rw [scan_in_gap rows 0 r r2 t2 hv.2 hc (by omega) h2] at hs2
  have e1 := Option.some.inj hs1
  have e2 := Option.some.inj hs2
  subst e1
  subst e2
  exact @gapValue_mono r.intensity r2.intensity (t1 - rowEnd r) (t2 - rowEnd r)
    (rowStart r2 - rowEnd r) (by omega) (by omega) (by omega) (by omega)
    (by omega) (by omega) (by omega) (by omega)

/-- C7, witness inside the increasing 08:00-08:30 gap of channel 0. -/
theorem C7_gap_monotone_w :
    Valid lightMatrix0 ∧
      consecMeaningful lightMatrix0 ⟨0, 0, 8, 0, 0⟩ ⟨8, 30, 11, 0, 255⟩ ∧
      rowEnd (⟨0, 0, 8, 0, 0⟩ : Row) < 29000 ∧ (29000 : Int) ≤ 29700 ∧
      (29700 : Int) < rowStart ⟨8, 30, 11, 0, 255⟩ ∧
      scanRows lightMatrix0 29000 = some 28 ∧ scanRows lightMatrix0 29700 = some 127 ∧
      (28 : Int) ≤ 127 :=
  ⟨by decide, by decide, by decide, by decide, by decide, by decide, by decide,
    (C7_gap_monotone lightMatrix0 ⟨0, 0, 8, 0, 0⟩ ⟨8, 30, 11, 0, 255⟩ 29000 29700 28 127
      (by decide) (by decide) (by decide) (by decide) (by decide) (by decide) (by decide)).1
      (by decide)⟩

/-- C8, counterexample: the decreasing-intensity branch does not reproduce
the spec's unified truncating-integer-division formula: with preceding
intensity 70, next intensity 0, elapsed 54 and gap 60, the code computes
70 - trunc(54 * fl32(70/60)) = 70 - 62 = 8 in binary32, while the unified
exact formula gives 70 + trunc(54*(-70)/60) = 70 - 63 = 7. -/
theorem C8_branch_equiv_cex :
    (0 : Int) - 70 < 0 ∧ gapValue 70 0 54 60 = 8 ∧ specGapValue 70 0 54 60 = 7 ∧
      (8 : Int) ≠ 7 := by
  decide

/-- C8 (amended): in the binary32 arithmetic the code actually uses, its two
branches do form one signed expression: for delta ≤ 0 the decreasing branch
`preVal - (int)(elapsed*((float)(-delta)/gapDuration))` equals
`preVal + (int)(elapsed*((float)delta/gapDuration))`, because the float
magnitude pipeline is sign-symmetric and truncation toward zero is odd; and
for delta > 0 the increasing branch equals that same signed expression
minus `preVal`.  Neither branch implements the spec's exact truncating
integer division (see the counterexample). -/
theorem C8_branch_equiv (preVal postVal elapsed tDur : Int)
    (he : 0 ≤ elapsed) (ht : 0 < tDur) :
    (postVal - preVal ≤ 0 →
      gapValue preVal postVal elapsed tDur =
        preVal + floatMulDiv elapsed (postVal - preVal) tDur) ∧
    (0 < postVal - preVal →
      gapValue preVal postVal elapsed tDur =
        preVal + floatMulDiv elapsed (postVal - preVal) tDur - preVal) := by
  unfold gapValue
  constructor
  · intro hd
    rw [if_neg (by omega : ¬ 0 < postVal - preVal)]
    have hneg := floatMulDiv_neg_of_nonpos he ht hd
    omega
  · intro hd
    rw [if_pos hd]
    omega

/-- C8, witness on a concrete decreasing transition (100 down to 40). -/
theorem C8_branch_equiv_w :
    (0 : Int) ≤ 7 ∧ (0 : Int) < 30 ∧ (40 : Int) - 100 ≤ 0 ∧
      gapValue 100 40 7 30 = 100 + floatMulDiv 7 (40 - 100) 30 ∧
      gapValue 100 40 7 30 = 86 :=
  ⟨by decide, by decide, by decide,
    (C8_branch_equiv 100 40 7 30 (by decide) (by decide)).1 (by decide), by decide⟩

/-- A channel table with no terminal row: every row ends at time 0, so for
any later time the scan walks past all five rows and, as in the source's
row-major `lightMatrix`, reads `lightMatrix[channel][MAXPERIODS]` — the
first row of the NEXT channel. -/
def aliasRows0 : List Row :=
  [⟨0, 0, 0, 0, 0⟩, ⟨0, 0, 0, 0, 0⟩, ⟨0, 0, 0, 0, 0⟩, ⟨0, 0, 0, 0, 0⟩,
   ⟨0, 0, 0, 0, 100⟩]

/-- A neighbouring channel whose first row starts at 02:00. -/
def aliasRows1 : List Row :=
  [⟨2, 0, 24, 0, 100⟩, ⟨0, 0, 0, 0, 0⟩, ⟨0, 0, 0, 0, 0⟩, ⟨0, 0, 0, 0, 0⟩,
   ⟨0, 0, 0, 0, 0⟩]

/-- The same neighbouring channel with only its first row's start moved to
00:30. -/
def aliasRows2 : List Row :=
  [⟨0, 30, 24, 0, 100⟩, ⟨0, 0, 0, 0, 0⟩, ⟨0, 0, 0, 0, 0⟩, ⟨0, 0, 0, 0, 0⟩,
   ⟨0, 0, 0, 0, 0⟩]

/-- C9, counterexample: channels are NOT resolved independently.  At
t = 3600 ∈ [0, 86400), channel 0's previous value and own table are
identical in the two calls and only channel 1's schedule differs, yet
channel 0 resolves to 100 in one call and keeps its previous value 7 in the
other: with no terminal row in channel 0's table, the scan's
`lightMatrix[0][MAXPERIODS]` read lands on channel 1's first row, whose
start time decides whether the gap branch fires. -/
theorem C9_channel_independence_cex :
    (0 : Int) ≤ 3600 ∧ (3600 : Int) < 86400 ∧
      ([7, 9] : List Int).get? 0 = ([7, 9] : List Int).get? 0 ∧
      [aliasRows0, aliasRows1].get? 0 = [aliasRows0, aliasRows2].get? 0 ∧
      (UpdateLights [7, 9] [aliasRows0, aliasRows1] 3600).get? 0 = some 100 ∧
      (UpdateLights [7, 9] [aliasRows0, aliasRows2] 3600).get? 0 = some 7 ∧
      some (100 : Int) ≠ some (7 : Int) := by
  decide

/-- C9 (amended): on a channel whose OWN schedule is valid, resolution is
independent of everything else: for t in [0, 86400), entry c of
`UpdateLights` equals the scan of channel c's own rows, whatever the other
channels' schedules and the previous table hold — the aliased read of the
next channel's first row is unreachable because the terminal row stops the
scan first.  Without the validity hypothesis this fails (see the
counterexample). -/
theorem C9_channel_independence (t : Int) (prev : List Int) (m : List (List Row))
    (c : Nat) (rows : List Row) (hm : m.get? c = some rows) (hlen : c < prev.length)
    (hv : Valid rows) (h0 : 0 ≤ t) (h1 : t < 86400) :
    (UpdateLights prev m t).get? c = scanRows rows t := by
  rw [UpdateLights_get, hm]
  cases hp : prev.get? c with
  | none =>
    rw [List.get?_eq_none] at hp
    omega
  | some v =>
    have hsc := scan_complete rows 0 t hv.2 (by omega)
    obtain ⟨w, hw⟩ := Option.isSome_iff_exists.mp hsc.1
    have heqn := scanRowsNext_eq rows ((m.get? (c + 1)).bind fun ch2 => ch2.head?) 0 t
      hv.2 (by omega)
    rw [List.get?_eq_getElem?] at heqn
    simp [heqn, hw]

/-- C9, witness: on the source's own valid tables at noon, channel 0 is the
scan of its own rows alone. -/
theorem C9_channel_independence_w :
    lightMatrix.get? 0 = some lightMatrix0 ∧ 0 < lightValue.length ∧
      Valid lightMatrix0 ∧ (0 : Int) ≤ 43200 ∧ (43200 : Int) < 86400 ∧
      (UpdateLights lightValue lightMatrix 43200).get? 0 = scanRows lightMatrix0 43200 :=
  ⟨by decide, by decide, by decide, by decide, by decide,
    C9_channel_independence 43200 lightValue lightMatrix 0 lightMatrix0 (by decide)
      (by decide) (by decide) (by decide) (by decide)⟩

/-- C10: at the boundary input t = 86400 exactly (one past the documented
range), the scan on a valid schedule still terminates with no out-of-bounds
read and yields the terminal row's intensity, because the terminal row's end
satisfies `pEnd >= t`. -/
theorem C10_end_of_day (rows : List Row) (hv : Valid rows) :
    scanRows rows 86400 = terminalIntensity rows ∧
      (terminalIntensity rows).isSome = true ∧ scanOOB rows 86400 = false := by
  have h := scan_terminal rows 0 hv.2
  exact ⟨h.1, terminal_isSome rows 0 hv.2, h.2⟩

/-- C10, witness on the source's channel-0 table. -/
theorem C10_end_of_day_w :
    Valid lightMatrix0 ∧ scanRows lightMatrix0 86400 = terminalIntensity lightMatrix0 ∧
      (terminalIntensity lightMatrix0).isSome = true ∧ scanOOB lightMatrix0 86400 = false :=
  ⟨by decide, C10_end_of_day lightMatrix0 (by decide)⟩

